import Mathlib

/-!
# Wade page manager: routing and page lifecycle

A shallow embedding of `src/pageman.go` (package `wade`): URL generation
(`pageUrl`), base-path handling (`cutPath`, `Fullpath`), the exclusion
tree-walk (`walk`) and the page transition (`updatePage`, `bind`).

Conventions of the embedding.

* A Go `string` is its sequence of bytes, `GoString = List Nat`.
* A Go `interface{}` argument is abstracted by `Iface`: `nil`, or a non-nil
  value represented by the bytes `fmt.Sprintf("%v", x)` prints for it.
* A Go panic is an explicit outcome (`Run.panic`), and a loop or recursion
  that the model bounds by fuel reports `Run.diverge` when the fuel is gone.
* Pointer identity of `*page` values is the field `ptr`.
-/

namespace Wade

/-! ## Go strings -/

/-- A Go string: a sequence of bytes. -/
abbrev GoString := List Nat

/-- Go's conversion `string(r)` of an integer code point to its UTF-8
encoding; `string(b)` for a byte `b` is this function at `b`. -/
def utf8EncodeRune (r : Nat) : GoString :=
  if r < 128 then [r]
  else if r < 2048 then [192 + r / 64, 128 + r % 64]
  else if r < 65536 then [224 + r / 4096, 128 + (r / 64) % 64, 128 + r % 64]
  else [240 + r / 262144, 128 + (r / 4096) % 64, 128 + (r / 64) % 64, 128 + r % 64]

/-- The bytes of a string literal (UTF-8). -/
def gostr (s : String) : GoString :=
  s.data.flatMap (fun c => utf8EncodeRune c.toNat)

/-- Go's `strings.HasPrefix`. -/
def startsWith (s p : GoString) : Bool :=
  s.take p.length == p

/-- Go's slice expression `s[i:j]` on a string (for `i ≤ j ≤ len(s)`). -/
def slice (s : GoString) (i j : Nat) : GoString :=
  (s.drop i).take (j - i)

/-- Outcome of running a piece of Go code: a normal return, a panic, or
exhaustion of the fuel that bounds a loop or a recursion of the model. -/
inductive Run (α : Type) where
  | ret (a : α)
  | panic (msg : GoString)
  | diverge
deriving DecidableEq

/-- A Go `interface{}` argument: `nil`, or a non-nil value given by the
bytes that `%v` formats it to. -/
inductive Iface where
  | nil
  | val (s : GoString)
deriving DecidableEq

/-! ## The URL router library (`github.com/naoina/kocha-urlrouter`) -/

/-- Modelled from the spec: `urlrouter.IsMetaChar`, the library's test for
the bytes that start a placeholder, `':'` (58) and `'*'` (42). -/
def IsMetaChar (c : Nat) : Bool :=
  c == 58 || c == 42

/-- The bytes that end a placeholder name: `'/'` (47) and `'#'` (35). -/
def isSeparator (c : Nat) : Bool :=
  c == 47 || c == 35

/-- Modelled from the spec: the library's scan `for start < len(path)` that
stops at the first `'/'` or `'#'` at or after `start`. -/
def nextSeparator (path : GoString) : Nat → Nat → Nat
  | 0, start => start
  | fuel + 1, start =>
    if start < path.length then
      if isSeparator (path.getD start 0) then start
      else nextSeparator path fuel (start + 1)
    else start

/-- Loop of `ParamNames`: `for i := 0; i < len(path); i++`, where a meta
character at `i` appends `path[i:next]` and sets `i = next`. -/
def paramNamesLoop (path : GoString) : Nat → Nat → List GoString → List GoString
  | 0, _, names => names
  | fuel + 1, i, names =>
    if i < path.length then
      if IsMetaChar (path.getD i 0) then
        let next := nextSeparator path path.length (i + 1)
        paramNamesLoop path fuel (next + 1) (names ++ [slice path i next])
      else paramNamesLoop path fuel (i + 1) names
    else names

/-- Modelled from the spec: `urlrouter.ParamNames`, the placeholders of a
path pattern in order of appearance; each starts at a `':'` or `'*'` and
runs to the next `'/'` or `'#'` or the end. -/
def ParamNames (path : GoString) : List GoString :=
  paramNamesLoop path (path.length + 1) 0 []

/-! ## Pages -/

/-- A route parameter produced by a lookup (`urlrouter.Param`). -/
structure Param where
  Name : GoString
  Value : GoString
deriving DecidableEq

/-- The error value built by `fmt.Errorf` in `pageUrl`, kept as its three
arguments in the order the code passes them. -/
structure UrlError where
  pageId : GoString
  expected : Nat
  got : Nat
deriving DecidableEq

/-- Loop of `pageUrl` (lines 318-333): `i` indexes the route, `k` counts the
placeholders consumed, `u` is the URL built so far. Indexing `routeparams[k]`
out of range and slicing `route[i:i+len]` past the end panic. -/
def pageUrlLoop (route : GoString) (routeparams : List GoString) (params : List Iface) :
    Nat → Nat → Nat → GoString → Run (Nat × GoString)
  | 0, _, _, _ => Run.diverge
  | fuel + 1, i, k, u =>
    if i ≥ route.length then Run.ret (k, u)
    else
      let c := route.getD i 0
      if IsMetaChar c then
        match routeparams.get? k with
        | none => Run.panic (gostr "index out of range")
        | some rp =>
          if i + rp.length > route.length then Run.panic (gostr "slice bounds out of range")
          else if slice route i (i + rp.length) = rp then
            let u1 := match params.get? k with
              | some (Iface.val s) => u ++ s
              | _ => u
            pageUrlLoop route routeparams params fuel (i + rp.length) (k + 1) u1
          else pageUrlLoop route routeparams params fuel (i + 1) k (u ++ utf8EncodeRune c)
      else pageUrlLoop route routeparams params fuel (i + 1) k (u ++ utf8EncodeRune c)

/-- Body of `pageUrl` (lines 309-341) for a page with path `route`: the pair
of named results `(u, err)`. -/
def pageUrlOf (pageId route : GoString) (params : List Iface) :
    Run (GoString × Option UrlError) :=
  if params.length = 0 then Run.ret (route, none)
  else
    let routeparams := ParamNames route
    match pageUrlLoop route routeparams params (route.length + 1) 0 0 [] with
    | Run.ret (k, u) =>
      if k ≠ params.length ∨ k ≠ routeparams.length then
        Run.ret (u, some ⟨pageId, params.length, routeparams.length⟩)
      else Run.ret (u, none)
    | Run.panic m => Run.panic m
    | Run.diverge => Run.diverge

/-! ## Go's `path` package -/

/-- Go's `path.Clean` backtracking on `..`: after `out.w--`, keep dropping
while `out.w > dotdot` and the byte just dropped is not `'/'`. The output
buffer is kept reversed (`rout`), `last` is the byte at index `out.w`. -/
def cleanBacktrack (dotdot : Nat) : List Nat → Nat → List Nat
  | [], _ => []
  | x :: r, last =>
    if (x :: r).length > dotdot && last != 47 then cleanBacktrack dotdot r x
    else x :: r

/-- Main loop of Go's `path.Clean` over the unread input `rest`; `rout` is
the output written so far, reversed, and `dotdot` the index below which the
output must not be backtracked. -/
def cleanLoop (rooted : Bool) : Nat → GoString → List Nat → Nat → List Nat
  | 0, _, rout, _ => rout
  | _ + 1, [], rout, _ => rout
  | fuel + 1, c :: rest, rout, dotdot =>
    if c = 47 then cleanLoop rooted fuel rest rout dotdot
    else if c = 46 ∧ (rest = [] ∨ rest.head? = some 47) then
      cleanLoop rooted fuel rest rout dotdot
    else if c = 46 ∧ rest.head? = some 46 ∧
        (rest.tail = [] ∨ rest.tail.head? = some 47) then
      if rout.length > dotdot then
        match rout with
        | [] => cleanLoop rooted fuel rest.tail rout dotdot
        | x :: r => cleanLoop rooted fuel rest.tail (cleanBacktrack dotdot r x) dotdot
      else if !rooted then
        let rout1 := if rout.length > 0 then 47 :: rout else rout
        cleanLoop rooted fuel rest.tail (46 :: 46 :: rout1) (rout1.length + 2)
      else cleanLoop rooted fuel rest.tail rout dotdot
    else
      let rout1 :=
        if (rooted && rout.length != 1) || (!rooted && rout.length != 0) then 47 :: rout
        else rout
      let seg := (c :: rest).takeWhile (fun b => b != 47)
      cleanLoop rooted fuel ((c :: rest).dropWhile (fun b => b != 47)) (seg.reverse ++ rout1) dotdot

/-- Go's `path.Clean`. -/
def pathClean (path : GoString) : GoString :=
  match path with
  | [] => [46]
  | c :: _ =>
    let rooted := c == 47
    let out := cleanLoop rooted (path.length + 1) (if rooted then path.tail else path)
      (if rooted then [47] else []) (if rooted then 1 else 0)
    if out.length = 0 then [46] else out.reverse

/-- Go's `path.Join` of two elements. -/
def pathJoin (a b : GoString) : GoString :=
  if a ≠ [] then pathClean (a ++ 47 :: b)
  else if b ≠ [] then pathClean b
  else []

/-! ## DOM elements -/

/-- An element of the DOM tree behind a `dom.Selection`: `nid` stands for
the identity of the node, `attrs` for its attributes, `children` for its
child elements in document order. -/
structure Elem where
  nid : Nat
  tag : GoString
  attrs : List (GoString × GoString)
  children : List Elem

/-- `e.Attr(name)`: the value and whether the attribute is present. -/
def Elem.Attr (e : Elem) (name : GoString) : Option GoString :=
  e.attrs.lookup name

/-- Identity, tag and attributes of an element, without its subtree. -/
def Elem.label (e : Elem) : Nat × GoString × List (GoString × GoString) :=
  (e.nid, e.tag, e.attrs)

/-! ## Display scopes -/

/-- The runtime scope of a page (`*Scope`): the matched page (its `ptr`), the
route parameters as a map, and the models contributed by controllers. -/
structure Scope where
  page : Nat
  params : List (GoString × GoString)
  models : List Nat
deriving DecidableEq

/-- A page controller (`PageControllerFunc`, `func(*Scope) error`): the
scope it leaves behind and the error it returns, if any. -/
abbrev PageControllerFunc := Scope → Scope × Option GoString

/-- A page group: its id, the ids of the pages it declares, its controllers. -/
structure PageGroup where
  id : GoString
  pages : List GoString
  controllers : List PageControllerFunc

/-- A page (`*page`); `ptr` is the identity of the pointer. -/
structure Page where
  ptr : Nat
  id : GoString
  path : GoString
  title : GoString
  groups : List PageGroup
  controllers : List PageControllerFunc

/-- The values stored in `pm.displayScopes`. -/
inductive DisplayScope where
  | page (p : Page)
  | group (g : PageGroup)
  | global

/-- Modelled from the spec: `hasPage` of the three display scope variants,
whose declarations are not in the source files at hand. A page has exactly
its own id, a group the ids it declares, the global scope every id. -/
def DisplayScope.hasPage (ds : DisplayScope) (pageId : GoString) : Bool :=
  match ds with
  | DisplayScope.page p => p.id == pageId
  | DisplayScope.group g => g.pages.contains pageId
  | DisplayScope.global => true

/-! ## The page manager -/

/-- Calls received by the `History` collaborator. -/
inductive HistoryCall where
  | ReplaceState (title path : GoString)
  | PushState (title path : GoString)
  | RedirectTo (url : GoString)
deriving DecidableEq

/-- Calls received by the binding engine's watcher. -/
inductive WatcherCall where
  | ResetWatchers
  | Checkpoint
deriving DecidableEq

/-- The operations of the `dom`, `icommon` and `bind` packages that
`updatePage` and `bind` apply to element lists and whose code is outside
this package; they are parameters of the model. -/
structure Collab where
  /-- `sel.Find(tag).Remove()` on the working container. -/
  removeAll : GoString → List Elem → List Elem
  /-- The `wrep` loop of `updatePage` (lines 262-270); `some msg` when
  `dom.ElementError` is raised. -/
  placeWreps : List Elem → List Elem × Option GoString
  /-- The `wsection` unwrap loop of `updatePage` (lines 272-274). -/
  unwrapSections : List Elem → List Elem
  /-- `icommon.WrapperUnwrap` on the real container. -/
  WrapperUnwrap : List Elem → List Elem
  /-- `binding.BindModels(root, models, false)` on the real container. -/
  BindModels : List Elem → List Nat → List Elem

/-- The state of a `pageManager` together with what its collaborators have
observed: `history` and `watcher` log the calls made on the history and the
watcher, `controllerCalls` counts controller invocations, `docTitle` is the
text of the document's `<title>`, `realHidden` whether the real container is
hidden. `router` is the `Lookup` method of the built router, a parameter
of the model: the router library's code is not among the source files. -/
structure PM where
  router : GoString → Option (Page × List Param)
  currentPage : Option Page
  startPageId : GoString
  basePath : GoString
  notFoundPage : Option Page
  container : List Elem
  tcontainer : List Elem
  realContainer : List Elem
  realHidden : Bool
  pc : Option Scope
  displayScopes : List (GoString × DisplayScope)
  globalControllers : List PageControllerFunc
  formattedTitle : GoString
  docTitle : Option GoString
  history : List HistoryCall
  watcher : List WatcherCall
  controllerCalls : Nat

/-- Outcome of a state-changing method: the state it returns with, the state
at the point of a panic, or exhaustion of the recursion fuel. -/
inductive Exec where
  | done (pm : PM)
  | panicked (msg : GoString) (pm : PM)
  | diverge

/-- A call on the history collaborator, appended to the log. -/
def PM.callHistory (pm : PM) (c : HistoryCall) : PM :=
  { pm with history := pm.history ++ [c] }

/-- `pm.cutPath(path)` (lines 111-116). -/
def PM.cutPath (pm : PM) (path : GoString) : GoString :=
  if startsWith path pm.basePath then path.drop pm.basePath.length else path

/-- The base path `newPageManager` stores for `config.BasePath` (lines 77-80). -/
def newBasePath (configBasePath : GoString) : GoString :=
  if configBasePath = [] then gostr "/" else configBasePath

/-- `pm.page(id)` (lines 118-126). -/
def PM.page (pm : PM) (id : GoString) : Run Page :=
  match pm.displayScopes.lookup id with
  | some (DisplayScope.page p) => Run.ret p
  | _ => Run.panic (gostr "No such page")

/-- `pm.SetNotFoundPage(pageId)` (lines 135-137). -/
def PM.SetNotFoundPage (pm : PM) (pageId : GoString) : Exec :=
  match pm.page pageId with
  | Run.ret p => Exec.done { pm with notFoundPage := some p }
  | Run.panic m => Exec.panicked m pm
  | Run.diverge => Exec.diverge

/-- `pm.Fullpath(pa)` (lines 140-142). -/
def PM.Fullpath (pm : PM) (pa : GoString) : GoString :=
  pathJoin pm.basePath pa

/-- `pm.CurrentPageId()` (lines 107-109); a nil current page panics. -/
def PM.CurrentPageId (pm : PM) : Run GoString :=
  match pm.currentPage with
  | some p => Run.ret p.id
  | none => Run.panic (gostr "nil pointer dereference")

/-- `pm.CurrentPage()` (lines 348-350). -/
def PM.CurrentPage (pm : PM) : Option Scope :=
  pm.pc

/-- `pm.pageUrl(pageId, params)` (lines 305-342). -/
def PM.pageUrl (pm : PM) (pageId : GoString) (params : List Iface) :
    Run (GoString × Option UrlError) :=
  match pm.page pageId with
  | Run.ret p => pageUrlOf pageId p.path params
  | Run.panic m => Run.panic m
  | Run.diverge => Run.diverge

/-- `pm.PageUrl(pageId, params...)` (lines 299-303). -/
def PM.PageUrl (pm : PM) (pageId : GoString) (params : List Iface) :
    Run (GoString × Option UrlError) :=
  match pm.pageUrl pageId params with
  | Run.ret (u, err) => Run.ret (pm.Fullpath u, err)
  | Run.panic m => Run.panic m
  | Run.diverge => Run.diverge

/-! ## The exclusion tree-walk -/

mutual
/-- `walk(elem, pm)` (lines 205-222): the element after the walk, and the
panic message when the walk panicked. -/
def walk (pm : PM) : Elem → Elem × Option GoString
  | ⟨nid, tag, attrs, children⟩ =>
    let r := walkChildren pm children
    (⟨nid, tag, attrs, r.1⟩, r.2)
/-- The loop of `walk` over the children, in order. A child without
`w-belong`, or whose scope has the current page, is walked; one whose scope
lacks the current page is removed; an unregistered scope panics, leaving the
remaining children untouched. -/
def walkChildren (pm : PM) : List Elem → List Elem × Option GoString
  | [] => ([], none)
  | e :: es =>
    match e.attrs.lookup (gostr "w-belong") with
    | none =>
      match walk pm e with
      | (e1, some m) => (e1 :: es, some m)
      | (e1, none) =>
        let r := walkChildren pm es
        (e1 :: r.1, r.2)
    | some belong =>
      match pm.displayScopes.lookup belong with
      | some ds =>
        match pm.currentPage with
        | none => (e :: es, some (gostr "nil pointer dereference"))
        | some cur =>
          if ds.hasPage cur.id then
            match walk pm e with
            | (e1, some m) => (e1 :: es, some m)
            | (e1, none) =>
              let r := walkChildren pm es
              (e1 :: r.1, r.2)
          else walkChildren pm es
      | none => (e :: es, some (gostr "Invalid value for w-belong"))
end

/-! ## Binding and the page transition -/

/-- Modelled from the spec: `pm.newRootScope(page, params)`, a fresh scope
for the page with the route parameters and no models yet. -/
def newRootScope (page : Page) (params : List (GoString × GoString)) : Scope :=
  ⟨page.ptr, params, []⟩

/-- Go's map assignment `m[k] = v`. -/
def mapSet (m : List (GoString × GoString)) (k v : GoString) : List (GoString × GoString) :=
  match m with
  | [] => [(k, v)]
  | (k1, v1) :: rest => if k1 = k then (k, v) :: rest else (k1, v1) :: mapSet rest k v

/-- The controllers of a transition, run one after the other on the shared
scope up to the first error: the final scope, the number of controllers
invoked, and the error. The code starts one goroutine per controller; this
is the schedule in which they run in list order. -/
def runControllers : List PageControllerFunc → Scope → Scope × Nat × Option GoString
  | [], s => (s, 0, none)
  | c :: cs, s =>
    match c s with
    | (s1, some err) => (s1, 1, some err)
    | (s1, none) =>
      let r := runControllers cs s1
      (r.1, r.2.1 + 1, r.2.2)

/-- The controller list `bind` collects (lines 354-368): those of the global
scope, of each group of the page in order, and of the page. -/
def PM.controllersFor (pm : PM) (cur : Page) : List PageControllerFunc :=
  pm.globalControllers ++ cur.groups.flatMap (fun g => g.controllers) ++ cur.controllers

/-- `pm.bind(params)` (lines 352-395). -/
def PM.bind (env : Collab) (pm : PM) (params : List (GoString × GoString)) : Exec :=
  match pm.currentPage with
  | none => Exec.panicked (gostr "nil pointer dereference") pm
  | some cur =>
    let s := newRootScope cur params
    let controllers := pm.controllersFor cur
    match runControllers controllers s with
    | (_, n, some err) =>
      Exec.panicked err { pm with controllerCalls := pm.controllerCalls + n }
    | (s1, n, none) =>
      Exec.done { pm with
        controllerCalls := pm.controllerCalls + n
        realContainer := env.BindModels pm.realContainer s1.models
        pc := some s1
        watcher := pm.watcher ++ [WatcherCall.Checkpoint] }

/-- The remount of `updatePage` (lines 254-283), entered when the resolved
page is not the current one. -/
def PM.remount (env : Collab) (pm : PM) (page : Page)
    (params : List (GoString × GoString)) : Exec :=
  let pm1 := { pm with formattedTitle := page.title, currentPage := some page }
  let pm2 := { pm1 with container := env.removeAll (gostr "wdefine") pm1.tcontainer }
  match walkChildren pm2 pm2.container with
  | (c, some m) => Exec.panicked m { pm2 with container := c }
  | (c, none) =>
    match env.placeWreps c with
    | (c1, some m) => Exec.panicked m { pm2 with container := c1 }
    | (c1, none) =>
      let pm3 := { pm2 with container := env.unwrapSections c1 }
      let pm4 := { pm3 with
        realHidden := true
        realContainer := pm3.container
        watcher := pm3.watcher ++ [WatcherCall.ResetWatchers] }
      match PM.bind env pm4 params with
      | Exec.done pm5 =>
        Exec.done { pm5 with
          realContainer := env.WrapperUnwrap pm5.realContainer
          realHidden := false
          docTitle := some pm5.formattedTitle }
      | r => r

/-- `pm.updatePage(url, pushState)` (lines 224-285); the fuel bounds the
recursion through the not-found page. -/
def PM.updatePage (env : Collab) : Nat → PM → GoString → Bool → Exec
  | 0, _, _, _ => Exec.diverge
  | fuel + 1, pm, url, pushState =>
    let path := pm.cutPath url
    let resolved : Run (GoString × PM) :=
      if path = [] ∨ path = gostr "/" then
        match pm.page pm.startPageId with
        | Run.ret startPage =>
          Run.ret (startPage.path, pm.callHistory
            (HistoryCall.ReplaceState startPage.title (pm.Fullpath startPage.path)))
        | Run.panic m => Run.panic m
        | Run.diverge => Run.diverge
      else Run.ret (path, pm)
    match resolved with
    | Run.panic m => Exec.panicked m pm
    | Run.diverge => Exec.diverge
    | Run.ret (path, pm1) =>
      match pm1.router path with
      | none =>
        match pm1.notFoundPage with
        | some nf => PM.updatePage env fuel pm1 nf.path false
        | none => Exec.panicked (gostr "Page not found. No 404 page declared.") pm1
      | some (page, routeparams) =>
        let pm2 :=
          if pushState then
            pm1.callHistory (HistoryCall.PushState page.title (pm1.Fullpath path))
          else pm1
        let params := routeparams.foldl (fun m p => mapSet m p.Name p.Value) []
        if pm2.currentPage.map (fun p => p.ptr) ≠ some page.ptr then
          PM.remount env pm2 page params
        else Exec.done pm2

/-! ## The route table -/

/-- A route record (`urlrouter.Record`): the path pattern and the page. -/
structure Record where
  Key : GoString
  Value : Page

/-- `pm.addRoute(p)` (lines 103-105) on the list of records. -/
def addRoute (routes : List Record) (p : Page) : List Record :=
  routes ++ [⟨p.path, p⟩]

/-- The bytes a placeholder of the demo route table takes from a path:
ASCII letters, digits, `-` and `_`. -/
def isValueByte (c : Nat) : Bool :=
  (48 ≤ c && c ≤ 57) || (65 ≤ c && c ≤ 90) || (97 ≤ c && c ≤ 122) || c == 45 || c == 95

/-- Modelled from the spec: the match of one pattern against a path, for the
route table of the concrete evaluations (the router library's code is not
among the source files, and the theorems take the router as a parameter).
Literal bytes must agree; a placeholder takes a non-empty run of value bytes
of the path. The spec does not say which bytes a placeholder may take; this
table takes letters, digits, `-` and `_` only. The parameters come out in
the order of the placeholders, each the declared name, without the leading
`':'` or `'*'` as in the spec's `{id: "42"}`, with the matched substring. -/
def matchRoute : Nat → GoString → GoString → Option (List Param)
  | 0, _, _ => none
  | _ + 1, [], [] => some []
  | _ + 1, [], _ :: _ => none
  | fuel + 1, c :: ps, path =>
    if IsMetaChar c then
      let name := ps.takeWhile (fun b => !isSeparator b)
      let value := path.takeWhile isValueByte
      if value = [] then none
      else
        match matchRoute fuel (ps.dropWhile (fun b => !isSeparator b))
            (path.dropWhile isValueByte) with
        | some rest => some (⟨name, value⟩ :: rest)
        | none => none
    else
      match path with
      | [] => none
      | d :: ds => if c = d then matchRoute fuel ps ds else none

/-- Modelled from the spec: `lookup(path)` of the route table of the
concrete evaluations, the first record in registration order whose pattern
matches the path, with the parameters of the match; `none` is the not-found
result. -/
def Lookup : List Record → GoString → Option (Page × List Param)
  | [], _ => none
  | r :: rs, path =>
    match matchRoute (r.Key.length + 1) r.Key path with
    | some params => some (r.Value, params)
    | none => Lookup rs path

/-! ## A small application used for concrete evaluations -/

/-- A controller that adds model `7` to the scope and succeeds. -/
def okController : PageControllerFunc :=
  fun s => ({ s with models := s.models ++ [7] }, none)

/-- A controller that returns an error. -/
def failingController : PageControllerFunc :=
  fun s => (s, some (gostr "controller failed"))

/-- Page `home` at `/`. -/
def homePage : Page :=
  ⟨1, gostr "home", gostr "/", gostr "Home", [], []⟩

/-- Page `user` at `/user/:id`, with one controller. -/
def userPage : Page :=
  ⟨2, gostr "user", gostr "/user/:id", gostr "User", [], [okController]⟩

/-- Page `notfound` at `/404`. -/
def notFoundPage : Page :=
  ⟨3, gostr "notfound", gostr "/404", gostr "Not found", [], []⟩

/-- Page `broken` at `/broken`, whose controller fails. -/
def brokenPage : Page :=
  ⟨4, gostr "broken", gostr "/broken", gostr "Broken", [], [failingController]⟩

/-- Page `menu` at `/café/:id`, a path with a non-ASCII literal. -/
def menuPage : Page :=
  ⟨5, gostr "menu", gostr "/café/:id", gostr "Menu", [], []⟩

/-- Page `pair` at `/pair/:a/:b`, with two placeholders. -/
def pairPage : Page :=
  ⟨6, gostr "pair", gostr "/pair/:a/:b", gostr "Pair", [], []⟩

/-- The records of the six pages in registration order. -/
def demoRoutes : List Record :=
  addRoute (addRoute (addRoute (addRoute (addRoute (addRoute [] homePage) userPage)
    notFoundPage) brokenPage) menuPage) pairPage

/-- Collaborators that leave the element lists as they are. -/
def idCollab : Collab :=
  ⟨fun _ es => es, fun es => (es, none), fun es => es, fun es => es, fun es _ => es⟩

/-- A prepared page manager over the six pages with the given base path,
`home` as start page and `notfound` as not-found page, before the first
transition. -/
def demoPM (basePath : GoString) : PM where
  router := Lookup demoRoutes
  currentPage := none
  startPageId := gostr "home"
  basePath := basePath
  notFoundPage := some notFoundPage
  container := []
  tcontainer := []
  realContainer := []
  realHidden := false
  pc := none
  displayScopes :=
    [(gostr "__global__", DisplayScope.global),
     (gostr "home", DisplayScope.page homePage),
     (gostr "user", DisplayScope.page userPage),
     (gostr "notfound", DisplayScope.page notFoundPage),
     (gostr "broken", DisplayScope.page brokenPage),
     (gostr "menu", DisplayScope.page menuPage),
     (gostr "pair", DisplayScope.page pairPage)]
  globalControllers := []
  formattedTitle := []
  docTitle := none
  history := []
  watcher := []
  controllerCalls := 0

/-- The demo page manager with base path `/app` after a transition to
`/app/user/42`: page `user` is current, with its scope. -/
def demoAtUser : PM :=
  { demoPM (gostr "/app") with
    currentPage := some userPage
    pc := some ⟨2, [(gostr "id", gostr "42")], [7]⟩
    formattedTitle := gostr "User"
    docTitle := some (gostr "User")
    watcher := [WatcherCall.ResetWatchers, WatcherCall.Checkpoint]
    controllerCalls := 1 }

/-- The demo page manager with base path `/app` and page `home` current. -/
def demoAtHome : PM :=
  { demoPM (gostr "/app") with
    currentPage := some homePage
    pc := some ⟨1, [], []⟩
    formattedTitle := gostr "Home"
    docTitle := some (gostr "Home")
    watcher := [WatcherCall.ResetWatchers, WatcherCall.Checkpoint] }

/-- A template tree: `root[a[b(w-belong=user)], c(w-belong=home)[d],
e(w-belong=__global__)]`, with node ids 10 to 15. -/
def demoTree : Elem :=
  ⟨10, gostr "div", [],
    [⟨11, gostr "div", [],
        [⟨12, gostr "p", [(gostr "w-belong", gostr "user")], []⟩]⟩,
     ⟨13, gostr "div", [(gostr "w-belong", gostr "home")],
        [⟨14, gostr "p", [], []⟩]⟩,
     ⟨15, gostr "span", [(gostr "w-belong", gostr "__global__")], []⟩]⟩

/-! ## Path patterns in segment form -/

/-- Path pattern assembled from a leading literal and (placeholder, literal) pairs. -/
def assemble (L0 : GoString) (segs : List (GoString × GoString)) : GoString :=
  L0 ++ segs.flatMap (fun s => s.1 ++ s.2)

def wfSegs : List (GoString × GoString) → Bool
  | [] => true
  | (p, L) :: rest =>
    (match p with
      | [] => false
      | m :: body => IsMetaChar m && body.all (fun c => !isSeparator c))
    && L.all (fun c => !IsMetaChar c)
    && (match L with
      | [] => rest.isEmpty
      | c :: _ => isSeparator c)
    && wfSegs rest

/-- What `pageUrl` appends for a run of literal bytes: `string(route[i])` each. -/
def emit (L : GoString) : GoString :=
  L.flatMap utf8EncodeRune

/-- What `pageUrl` appends for placeholder `k`: the `%v` form of `params[k]`,
nothing when it is nil or absent. -/
def paramStr (params : List Iface) (k : Nat) : GoString :=
  match params.get? k with
  | some (Iface.val s) => s
  | _ => []

/-- Output of the `pageUrl` loop after the leading literal. -/
def fillSegs (params : List Iface) : Nat → List (GoString × GoString) → GoString
  | _, [] => []
  | k, (_, L) :: rest => paramStr params k ++ (emit L ++ fillSegs params (k + 1) rest)

/-- The URL a pattern in segment form stands for once its placeholders are
replaced in order: every literal verbatim, placeholder `k` replaced by the
`%v` form of `params[k]`, by nothing when that parameter is nil. -/
def substitute (params : List Iface) : Nat → List (GoString × GoString) → GoString
  | _, [] => []
  | k, (_, L) :: rest => paramStr params k ++ (L ++ substitute params (k + 1) rest)

/-- Every literal byte of a pattern in segment form is ASCII. -/
def asciiLiterals (L0 : GoString) (segs : List (GoString × GoString)) : Bool :=
  L0.all (fun c => c < 128) && segs.all (fun s => s.2.all (fun c => c < 128))

/-- What `pageUrl` appends after the leading literal for the non-nil
parameters with `%v` forms `vals`, one for each placeholder in order, each
followed by what the loop emits for the literal after the placeholder. -/
def fillVals : List GoString → List (GoString × GoString) → GoString
  | v :: vs, (_, L) :: rest => v ++ (emit L ++ fillVals vs rest)
  | _, _ => []

/-! ## Observations on page manager states -/

/-- The call is a `PushState`. -/
def HistoryCall.isPushState : HistoryCall → Bool
  | HistoryCall.PushState _ _ => true
  | _ => false

/-- The state of an outcome that is not a divergence. -/
def Exec.state? : Exec → Option PM
  | Exec.done pm => some pm
  | Exec.panicked _ pm => some pm
  | Exec.diverge => none

/-- The identity of the current page, if there is one. -/
def PM.currentPtr (pm : PM) : Option Nat :=
  pm.currentPage.map (fun p => p.ptr)

/-- The page-related part of two states agrees: current page, current scope,
working and real container content, visibility, document title, pending
title, watcher calls and controller invocations. -/
def PM.samePageState (pm pm1 : PM) : Prop :=
  pm1.currentPage = pm.currentPage ∧ pm1.pc = pm.pc ∧
  pm1.container = pm.container ∧ pm1.realContainer = pm.realContainer ∧
  pm1.realHidden = pm.realHidden ∧ pm1.docTitle = pm.docTitle ∧
  pm1.formattedTitle = pm.formattedTitle ∧ pm1.watcher = pm.watcher ∧
  pm1.controllerCalls = pm.controllerCalls

/-- The label of an element: identity, tag and attributes. -/
abbrev Label := Nat × GoString × List (GoString × GoString)

mutual
/-- For every proper descendant of an element, in document order, the chain
of labels from the child of the element that contains it down to the
descendant itself. -/
def descChains : Elem → List (List Label)
  | ⟨_, _, _, children⟩ => childChains children
/-- The chains of the descendants of a list of sibling elements. -/
def childChains : List Elem → List (List Label)
  | [] => []
  | c :: cs => ([c.label] :: (descChains c).map (fun ch => c.label :: ch)) ++ childChains cs
end

/-- The element with this label passes the test of `walk` for page id
`pageId`: it has no `w-belong` attribute, or the attribute names a
registered display scope `S` with `S.hasPage(pageId)`. -/
def PM.keeps (pm : PM) (pageId : GoString) (l : Label) : Bool :=
  match l.2.2.lookup (gostr "w-belong") with
  | none => true
  | some belong =>
    match pm.displayScopes.lookup belong with
    | some ds => ds.hasPage pageId
    | none => false

/-- The `w-belong` attribute of the element with this label, if it has one,
names a registered display scope. -/
def PM.belongRegistered (pm : PM) (l : Label) : Bool :=
  match l.2.2.lookup (gostr "w-belong") with
  | none => true
  | some belong => (pm.displayScopes.lookup belong).isSome

/-- A path element that `path.Clean` keeps as it is: non-empty, without
`'/'`, and neither `.` nor `..`. -/
def normalSeg (s : GoString) : Bool :=
  s != [] && s.all (fun c => c != 47) && s != [46] && s != [46, 46]

/-- The absolute path `/s1/s2/.../sn` of the elements `s1 ... sn`. -/
def joinSegs (segs : List GoString) : GoString :=
  segs.flatMap (fun s => 47 :: s)

/-- The reversed output of `path.Clean` on a rooted path after one more
element: a separator unless the output is the root `/` alone, then the
element. -/
def pushSeg (rout : List Nat) (s : GoString) : List Nat :=
  s.reverse ++ (if rout.length != 1 then 47 :: rout else rout)

/-- The state with its history log replaced. -/
def PM.withHistory (pm : PM) (h : List HistoryCall) : PM :=
  { pm with history := h }

/-- The URL resolves to `page`: the resolving steps of `updatePage` (lines
225-242) end at `page := match.(*page)` with this page. Either the stripped
path is looked up (`direct`), or it is empty or `/` and the start page's
path is looked up (`start`); when the lookup finds nothing, the path of the
not-found page is resolved in turn (`notFound`, `startNotFound`). -/
inductive PM.Resolves (pm : PM) : GoString → Page → Prop where
  | direct (url : GoString) (page : Page) (rps : List Param) :
      ¬ (pm.cutPath url = [] ∨ pm.cutPath url = gostr "/") →
      pm.router (pm.cutPath url) = some (page, rps) → PM.Resolves pm url page
  | start (url : GoString) (sp page : Page) (rps : List Param) :
      (pm.cutPath url = [] ∨ pm.cutPath url = gostr "/") →
      pm.page pm.startPageId = Run.ret sp →
      pm.router sp.path = some (page, rps) → PM.Resolves pm url page
  | notFound (url : GoString) (nf page : Page) :
      ¬ (pm.cutPath url = [] ∨ pm.cutPath url = gostr "/") →
      pm.router (pm.cutPath url) = none → pm.notFoundPage = some nf →
      PM.Resolves pm nf.path page → PM.Resolves pm url page
  | startNotFound (url : GoString) (sp nf page : Page) :
      (pm.cutPath url = [] ∨ pm.cutPath url = gostr "/") →
      pm.page pm.startPageId = Run.ret sp →
      pm.router sp.path = none → pm.notFoundPage = some nf →
      PM.Resolves pm nf.path page → PM.Resolves pm url page

/-! ## URL generation: the loop on a pattern in segment form -/

theorem getD_append_cons (pre : GoString) (x : Nat) (rest : GoString) (d : Nat) :
    (pre ++ x :: rest).getD pre.length d = x := by
  induction pre with
  | nil => rfl
  | cons a as ih => simpa using ih

theorem nextSeparator_run (body : GoString) (hb : ∀ c ∈ body, isSeparator c = false) :
    ∀ (pre suf : GoString) (fuel : Nat), body.length ≤ fuel →
      (∀ c rest, suf = c :: rest → isSeparator c = true) →
      nextSeparator (pre ++ (body ++ suf)) fuel pre.length = pre.length + body.length := by
  induction body with
  | nil =>
    intro pre suf fuel _ hs
    cases fuel with
    | zero => simp [nextSeparator]
    | succ n =>
      cases suf with
      | nil => simp [nextSeparator]
      | cons c rest =>
        have := hs c rest rfl
        simp only [nextSeparator, List.nil_append, getD_append_cons, this]
        simp
  | cons b bs ih =>
    intro pre suf fuel hf hs
    cases fuel with
    | zero => simp at hf
    | succ n =>
      have hb0 : isSeparator b = false := hb b (by simp)
      have h1 := ih (fun c hc => hb c (by simp [hc])) (pre ++ [b]) suf n (by simpa using hf) hs
      simp only [List.append_assoc, List.singleton_append, List.length_append, List.length_singleton] at h1
      simp only [nextSeparator, List.cons_append, getD_append_cons, hb0]
      simp only [List.length_append, List.length_cons]
      rw [if_pos (by omega)]
      simp only [Bool.false_eq_true, if_false]
      rw [h1]; omega

theorem slice_mid (pre p suf : GoString) :
    slice (pre ++ (p ++ suf)) pre.length (pre.length + p.length) = p := by
  simp [slice]

theorem paramNamesLoop_lit (path : GoString) :
    ∀ (L pre suf : GoString) (names : List GoString) (fuel : Nat),
      path = pre ++ (L ++ suf) → (∀ c ∈ L, IsMetaChar c = false) →
      paramNamesLoop path (fuel + L.length) pre.length names
        = paramNamesLoop path fuel (pre.length + L.length) names := by
  intro L
  induction L with
  | nil => intro pre suf names fuel _ _; simp
  | cons b bs ih =>
    intro pre suf names fuel hp hL
    have hb : IsMetaChar b = false := hL b (by simp)
    have h1 := ih (pre ++ [b]) suf names fuel (by simp [hp]) (fun c hc => hL c (by simp [hc]))
    have hlen : pre.length < path.length := by simp [hp]
    have hget : path.getD pre.length 0 = b := by
      rw [hp]; exact getD_append_cons pre b (bs ++ suf) 0
    rw [show fuel + (b :: bs).length = (fuel + bs.length) + 1 by simp; omega]
    simp only [paramNamesLoop, hlen, if_true, hget, hb, Bool.false_eq_true, if_false]
    simp only [List.length_append, List.length_singleton] at h1
    rw [h1]; congr 1; simp; omega

theorem paramNamesLoop_segs :
    ∀ (segs : List (GoString × GoString)) (path L0 pre : GoString)
      (names : List GoString) (fuel : Nat),
      path = pre ++ assemble L0 segs → (∀ c ∈ L0, IsMetaChar c = false) →
      wfSegs segs = true → (assemble L0 segs).length + 1 ≤ fuel →
      paramNamesLoop path fuel pre.length names = names ++ segs.map Prod.fst := by
  intro segs
  induction segs with
  | nil =>
    intro path L0 pre names fuel hp hL _ hf
    simp only [assemble, List.flatMap_nil, List.append_nil] at hp hf
    obtain ⟨f, rfl⟩ : ∃ f, fuel = (f + 1) + L0.length := ⟨fuel - L0.length - 1, by omega⟩
    rw [paramNamesLoop_lit path L0 pre [] names (f + 1) (by simp [hp]) hL]
    simp [paramNamesLoop, hp]
  | cons s rest ih =>
    intro path L0 pre names fuel hp hL hwf hf
    obtain ⟨p, L⟩ := s
    cases p with
    | nil => simp [wfSegs] at hwf
    | cons m body =>
      simp only [wfSegs, Bool.and_eq_true, List.all_eq_true, Bool.not_eq_true'] at hwf
      obtain ⟨⟨⟨⟨hm, hbody⟩, hLm⟩, hsep⟩, hrest⟩ := hwf
      have hasm : assemble L0 ((m :: body, L) :: rest)
          = L0 ++ (m :: (body ++ assemble L rest)) := by
        simp [assemble]
      rw [hasm] at hp hf
      simp only [List.length_append, List.length_cons] at hf
      obtain ⟨f, rfl⟩ : ∃ f, fuel = (f + 1) + L0.length := ⟨fuel - L0.length - 1, by omega⟩
      rw [paramNamesLoop_lit path L0 pre _ names (f + 1) hp hL]
      have hp2 : path = (pre ++ L0) ++ m :: (body ++ assemble L rest) := by simp [hp]
      have hlen : pre.length + L0.length < path.length := by simp [hp2]
      have hget : path.getD (pre.length + L0.length) 0 = m := by
        rw [hp2, ← List.length_append]; exact getD_append_cons _ m _ 0
      have hsuf : ∀ c r, assemble L rest = c :: r → isSeparator c = true := by
        intro c r h
        cases L with
        | nil =>
          simp only [List.isEmpty_iff] at hsep
          subst hsep; simp [assemble] at h
        | cons l ls =>
          simp only [assemble, List.cons_append, List.cons.injEq] at h
          rw [← h.1]; exact hsep
      have hnext : nextSeparator path path.length (pre.length + L0.length + 1)
          = pre.length + L0.length + 1 + body.length := by
        have hp3 : path = (pre ++ L0 ++ [m]) ++ (body ++ assemble L rest) := by simp [hp]
        have := nextSeparator_run body hbody (pre ++ L0 ++ [m]) (assemble L rest) path.length
          (by rw [hp3]; simp; omega) hsuf
        rw [← hp3] at this
        simpa using this
      have hsl : slice path (pre.length + L0.length) (pre.length + L0.length + 1 + body.length)
          = m :: body := by
        have := slice_mid (pre ++ L0) (m :: body) (assemble L rest)
        simp only [List.length_append, List.length_cons, List.cons_append] at this
        rw [hp2]
        rw [show pre.length + L0.length + 1 + body.length
          = pre.length + L0.length + (body.length + 1) by omega]
        exact this
      simp only [paramNamesLoop, hlen, if_true, hget, hm, hnext, hsl]
      cases L with
      | nil =>
        simp only [List.isEmpty_iff] at hsep
        subst hsep
        have hend : ¬ (pre.length + L0.length + 1 + body.length + 1 < path.length) := by
          simp [hp2, assemble]; omega
        cases f with
        | zero => simp [paramNamesLoop]
        | succ n => simp [paramNamesLoop, hend]
      | cons l ls =>
        have hls : ∀ c ∈ ls, IsMetaChar c = false := fun c hc => hLm c (by simp [hc])
        have hp4 : path = (pre ++ L0 ++ (m :: body) ++ [l]) ++ assemble ls rest := by
          simp [hp, assemble]
        have := ih path ls (pre ++ L0 ++ (m :: body) ++ [l]) (names ++ [m :: body]) f hp4 hls
          hrest (by simp [assemble] at hf ⊢; omega)
        simp only [List.length_append, List.length_cons, List.length_singleton,
          List.length_nil] at this
        rw [show pre.length + L0.length + 1 + body.length + 1
          = pre.length + L0.length + (body.length + 1) + (0 + 1) by omega]
        rw [this]; simp

theorem ParamNames_assemble (L0 : GoString) (segs : List (GoString × GoString))
    (hL : ∀ c ∈ L0, IsMetaChar c = false) (hwf : wfSegs segs = true) :
    ParamNames (assemble L0 segs) = segs.map Prod.fst := by
  have := paramNamesLoop_segs segs (assemble L0 segs) L0 [] [] ((assemble L0 segs).length + 1)
    (by simp) hL hwf (le_refl _)
  simpa [ParamNames] using this

theorem emit_ascii (L : GoString) (h : ∀ c ∈ L, c < 128) : emit L = L := by
  induction L with
  | nil => rfl
  | cons b bs ih =>
    have hb : b < 128 := h b (by simp)
    have := ih (fun c hc => h c (by simp [hc]))
    simp only [emit, List.flatMap_cons] at this ⊢
    rw [this]; simp [utf8EncodeRune, hb]

theorem pageUrlLoop_lit (path : GoString) (rps : List GoString) (params : List Iface) :
    ∀ (L pre suf : GoString) (k : Nat) (u : GoString) (fuel : Nat),
      path = pre ++ (L ++ suf) → (∀ c ∈ L, IsMetaChar c = false) →
      pageUrlLoop path rps params (fuel + L.length) pre.length k u
        = pageUrlLoop path rps params fuel (pre.length + L.length) k (u ++ emit L) := by
  intro L
  induction L with
  | nil => intro pre suf k u fuel _ _; simp [emit]
  | cons b bs ih =>
    intro pre suf k u fuel hp hL
    have hb : IsMetaChar b = false := hL b (by simp)
    have h1 := ih (pre ++ [b]) suf k (u ++ utf8EncodeRune b) fuel (by simp [hp])
      (fun c hc => hL c (by simp [hc]))
    have hlen : ¬ (pre.length ≥ path.length) := by simp [hp]
    have hget : path.getD pre.length 0 = b := by
      rw [hp]; exact getD_append_cons pre b (bs ++ suf) 0
    rw [show fuel + (b :: bs).length = (fuel + bs.length) + 1 by simp; omega]
    simp only [pageUrlLoop, hlen, if_false, hget, hb, Bool.false_eq_true]
    simp only [List.length_append, List.length_singleton] at h1
    rw [h1]; simp [emit, Nat.add_assoc, Nat.add_comm 1]

theorem pageUrlLoop_segs (params : List Iface) (rps : List GoString) :
    ∀ (segs : List (GoString × GoString)) (path L0 pre : GoString)
      (done : List GoString) (u : GoString) (fuel : Nat),
      path = pre ++ assemble L0 segs → (∀ c ∈ L0, IsMetaChar c = false) →
      wfSegs segs = true → rps = done ++ segs.map Prod.fst →
      (assemble L0 segs).length + 1 ≤ fuel →
      pageUrlLoop path rps params fuel pre.length done.length u
        = Run.ret (done.length + segs.length,
            u ++ (emit L0 ++ fillSegs params done.length segs)) := by
  intro segs
  induction segs with
  | nil =>
    intro path L0 pre done u fuel hp hL _ _ hf
    simp only [assemble, List.flatMap_nil, List.append_nil] at hp hf
    obtain ⟨f, rfl⟩ : ∃ f, fuel = (f + 1) + L0.length := ⟨fuel - L0.length - 1, by omega⟩
    rw [pageUrlLoop_lit path rps params L0 pre [] _ u (f + 1) (by simp [hp]) hL]
    simp [pageUrlLoop, hp, fillSegs]
  | cons s rest ih =>
    intro path L0 pre done u fuel hp hL hwf hr hf
    obtain ⟨p, L⟩ := s
    cases p with
    | nil => simp [wfSegs] at hwf
    | cons m body =>
      simp only [wfSegs, Bool.and_eq_true, List.all_eq_true, Bool.not_eq_true'] at hwf
      obtain ⟨⟨⟨⟨hm, _⟩, hLm⟩, _⟩, hrest⟩ := hwf
      have hasm : assemble L0 ((m :: body, L) :: rest)
          = L0 ++ (m :: (body ++ assemble L rest)) := by
        simp [assemble]
      rw [hasm] at hp hf
      simp only [List.length_append, List.length_cons] at hf
      obtain ⟨f, rfl⟩ : ∃ f, fuel = (f + 1) + L0.length := ⟨fuel - L0.length - 1, by omega⟩
      rw [pageUrlLoop_lit path rps params L0 pre _ _ u (f + 1) hp hL]
      have hp2 : path = (pre ++ L0) ++ ((m :: body) ++ assemble L rest) := by simp [hp]
      have hlen : ¬ (pre.length + L0.length ≥ path.length) := by simp [hp2]
      have hget : path.getD (pre.length + L0.length) 0 = m := by
        rw [hp2, ← List.length_append]; exact getD_append_cons _ m _ 0
      have hrp : rps.get? done.length = some (m :: body) := by
        rw [hr]
        simp only [List.map_cons, List.get?_eq_getElem?]
        rw [List.getElem?_append_right (le_refl _)]
        simp
      have hbound : ¬ (pre.length + L0.length + (m :: body).length > path.length) := by
        simp [hp2]; omega
      have hsl : slice path (pre.length + L0.length)
          (pre.length + L0.length + (m :: body).length) = m :: body := by
        have := slice_mid (pre ++ L0) (m :: body) (assemble L rest)
        rw [List.length_append] at this
        rw [hp2]; exact this
      simp only [pageUrlLoop, hlen, if_false, hget, hm, if_true, hrp, hbound, hsl]
      have hp4 : path = (pre ++ L0 ++ (m :: body)) ++ assemble L rest := by
        simp [hp]
      have := ih path L (pre ++ L0 ++ (m :: body)) (done ++ [m :: body])
        (u ++ emit L0 ++ paramStr params done.length) f hp4 hLm hrest (by simp [hr])
        (by simp [assemble] at hf ⊢; omega)
      simp only [List.length_append, List.length_singleton] at this
      have hu : (match params.get? done.length with
          | some (Iface.val s) => u ++ emit L0 ++ s
          | _ => u ++ emit L0) = u ++ emit L0 ++ paramStr params done.length := by
        unfold paramStr
        cases params.get? done.length with
        | none => simp
        | some v => cases v <;> simp
      rw [hu, this]
      simp [fillSegs, Nat.add_assoc, Nat.add_comm 1]

theorem sep_not_meta (c : Nat) (h : isSeparator c = true) : IsMetaChar c = false := by
  simp only [isSeparator, Bool.or_eq_true, beq_iff_eq] at h
  rcases h with h | h <;> subst h <;> rfl

theorem dropWhile_head_false {α : Type} (p : α → Bool) :
    ∀ (l : List α) (x : α) (r : List α), l.dropWhile p = x :: r → p x = false := by
  intro l
  induction l with
  | nil => intro x r h; simp at h
  | cons a as ih =>
    intro x r h
    by_cases hp : p a = true
    · rw [List.dropWhile_cons_of_pos hp] at h; exact ih x r h
    · rw [List.dropWhile_cons_of_neg hp] at h
      simp only [List.cons.injEq] at h
      rw [← h.1]; simpa using hp

theorem dropWhile_length_le {α : Type} (p : α → Bool) (l : List α) :
    (l.dropWhile p).length ≤ l.length := by
  induction l with
  | nil => simp
  | cons a as ih =>
    by_cases hp : p a = true
    · rw [List.dropWhile_cons_of_pos hp]; simp; omega
    · rw [List.dropWhile_cons_of_neg hp]

theorem takeWhile_all {α : Type} (p : α → Bool) (l : List α) :
    ∀ x ∈ l.takeWhile p, p x = true := by
  intro x hx
  exact List.mem_takeWhile_imp hx

theorem exists_segments (n : Nat) :
    ∀ route : GoString, route.length ≤ n →
      ∃ (L0 : GoString) (segs : List (GoString × GoString)),
        route = assemble L0 segs ∧ (∀ c ∈ L0, IsMetaChar c = false) ∧ wfSegs segs = true := by
  induction n with
  | zero =>
    intro route h
    have : route = [] := List.eq_nil_of_length_eq_zero (by omega)
    exact ⟨[], [], by simp [this, assemble], by simp, rfl⟩
  | succ n ih =>
    intro route h
    have hsplit := List.takeWhile_append_dropWhile (fun c => !IsMetaChar c) route
    have hL0 : ∀ c ∈ route.takeWhile (fun c => !IsMetaChar c), IsMetaChar c = false := by
      intro c hc
      simpa using takeWhile_all (fun c => !IsMetaChar c) route c hc
    cases hr : route.dropWhile (fun c => !IsMetaChar c) with
    | nil =>
      refine ⟨route.takeWhile (fun c => !IsMetaChar c), [], ?_, hL0, rfl⟩
      rw [hr] at hsplit
      simp only [assemble, List.flatMap_nil]
      exact hsplit.symm
    | cons m r =>
      have hm : IsMetaChar m = true := by
        simpa using dropWhile_head_false _ route m r hr
      have hsplit2 := List.takeWhile_append_dropWhile (fun c => !isSeparator c) r
      have hbody : ∀ c ∈ r.takeWhile (fun c => !isSeparator c), isSeparator c = false := by
        intro c hc
        simpa using takeWhile_all (fun c => !isSeparator c) r c hc
      have hlen1 : (route.dropWhile (fun c => !IsMetaChar c)).length ≤ route.length :=
        dropWhile_length_le _ _
      have hlen2 : (r.dropWhile (fun c => !isSeparator c)).length ≤ r.length :=
        dropWhile_length_le _ _
      rw [hr] at hlen1
      simp only [List.length_cons] at hlen1
      obtain ⟨L1, segs, hafter, hL1, hwf⟩ :=
        ih (r.dropWhile (fun c => !isSeparator c)) (by omega)
      refine ⟨route.takeWhile (fun c => !IsMetaChar c),
        (m :: r.takeWhile (fun c => !isSeparator c), L1) :: segs, ?_, hL0, ?_⟩
      · rw [hr] at hsplit
        have : assemble (route.takeWhile (fun c => !IsMetaChar c))
            ((m :: r.takeWhile (fun c => !isSeparator c), L1) :: segs)
            = route.takeWhile (fun c => !IsMetaChar c)
              ++ m :: (r.takeWhile (fun c => !isSeparator c) ++ assemble L1 segs) := by
          simp [assemble]
        rw [this, ← hafter, hsplit2, hsplit]
      · have hhead : ∀ c t, r.dropWhile (fun c => !isSeparator c) = c :: t →
            isSeparator c = true := by
          intro c t hct
          simpa using dropWhile_head_false _ r c t hct
        simp only [wfSegs, Bool.and_eq_true, List.all_eq_true, Bool.not_eq_true']
        refine ⟨⟨⟨⟨hm, hbody⟩, hL1⟩, ?_⟩, hwf⟩
        cases L1 with
        | nil =>
          cases segs with
          | nil => rfl
          | cons s ss =>
            exfalso
            obtain ⟨p, L⟩ := s
            cases p with
            | nil => simp [wfSegs] at hwf
            | cons m2 b2 =>
              simp only [wfSegs, Bool.and_eq_true] at hwf
              have hm2 : IsMetaChar m2 = true := hwf.1.1.1.1
              have h2 := hhead m2 (b2 ++ L ++ ss.flatMap (fun s => s.1 ++ s.2))
                (by rw [hafter]; simp [assemble])
              rw [sep_not_meta m2 h2] at hm2
              exact Bool.false_ne_true hm2
        | cons c t =>
          exact hhead c (t ++ segs.flatMap (fun s => s.1 ++ s.2))
            (by rw [hafter]; simp [assemble])

theorem pageUrlOf_segs (pageId L0 : GoString) (segs : List (GoString × GoString))
    (params : List Iface) (hn : params ≠ [])
    (hL : ∀ c ∈ L0, IsMetaChar c = false) (hwf : wfSegs segs = true) :
    pageUrlOf pageId (assemble L0 segs) params
      = Run.ret (emit L0 ++ fillSegs params 0 segs,
          if segs.length = params.length then none
          else some ⟨pageId, params.length, segs.length⟩) := by
  have hlen : ¬ (params.length = 0) := by
    intro h; exact hn (List.eq_nil_of_length_eq_zero h)
  have hloop := pageUrlLoop_segs params (ParamNames (assemble L0 segs)) segs
    (assemble L0 segs) L0 [] [] [] ((assemble L0 segs).length + 1) (by simp) hL hwf
    (by simp [ParamNames_assemble L0 segs hL hwf]) (le_refl _)
  simp only [List.length_nil, Nat.zero_add, List.nil_append] at hloop
  rw [ParamNames_assemble L0 segs hL hwf] at hloop
  simp only [pageUrlOf, hlen, if_false, hloop, ParamNames_assemble L0 segs hL hwf,
    List.length_map]
  by_cases h : segs.length = params.length
  · simp [h]
  · simp [h]

/-! ## URL generation: parameter count (C1) and output (C3) -/

theorem pageUrlOf_nonempty (pageId route : GoString) (params : List Iface)
    (hn : params ≠ []) :
    ∃ u, pageUrlOf pageId route params
      = Run.ret (u, if (ParamNames route).length = params.length then none
          else some ⟨pageId, params.length, (ParamNames route).length⟩) := by
  obtain ⟨L0, segs, hr, hL, hwf⟩ := exists_segments route.length route (le_refl _)
  refine ⟨emit L0 ++ fillSegs params 0 segs, ?_⟩
  rw [hr, pageUrlOf_segs pageId L0 segs params hn hL hwf, ParamNames_assemble L0 segs hL hwf]
  simp

/-- C1 (amended). For every registered page `P` and every non-empty list of
positional parameters, `pageUrl(P.id, params)` returns, and it returns an
error if and only if the number of parameters differs from the number of
placeholders `urlrouter.ParamNames` extracts from `P.path`. -/
theorem pageUrl_error_iff_count_mismatch (pm : PM) (pageId : GoString) (P : Page)
    (params : List Iface) (hP : pm.page pageId = Run.ret P) (hn : params ≠ []) :
    ∃ u err, pm.pageUrl pageId params = Run.ret (u, err) ∧
      (err.isSome = true ↔ params.length ≠ (ParamNames P.path).length) := by
  obtain ⟨u, hu⟩ := pageUrlOf_nonempty pageId P.path params hn
  refine ⟨u, _, by simp only [PM.pageUrl, hP]; exact hu, ?_⟩
  by_cases h : (ParamNames P.path).length = params.length
  · simp [h]
  · simp [h]; exact fun h2 => h h2.symm

/-- Witness of C1 (amended): page `user` at `/user/:id` with two parameters,
one more than the path declares. -/
theorem pageUrl_error_iff_count_mismatch_witness :
    ∃ u err, (demoPM (gostr "/app")).pageUrl (gostr "user")
        [Iface.val (gostr "42"), Iface.val (gostr "x")] = Run.ret (u, err) ∧
      (err.isSome = true ↔
        [Iface.val (gostr "42"), Iface.val (gostr "x")].length
          ≠ (ParamNames userPage.path).length) :=
  pageUrl_error_iff_count_mismatch (demoPM (gostr "/app")) (gostr "user") userPage
    [Iface.val (gostr "42"), Iface.val (gostr "x")] rfl (by decide)

/-- C1 (counterexample). For page `user` at `/user/:id`, which declares one
placeholder, `pageUrl` with the empty parameter list returns the pattern
itself and no error, although the counts differ. -/
theorem pageUrl_empty_params_returns_no_error :
    (demoPM (gostr "/app")).page (gostr "user") = Run.ret userPage ∧
    (demoPM (gostr "/app")).pageUrl (gostr "user") []
      = Run.ret (gostr "/user/:id", none) ∧
    ([] : List Iface).length ≠ (ParamNames userPage.path).length :=
  ⟨rfl, rfl, by decide⟩

theorem fillSegs_ascii (params : List Iface) :
    ∀ (segs : List (GoString × GoString)) (k : Nat),
      segs.all (fun s => s.2.all (fun c => c < 128)) = true →
      fillSegs params k segs = substitute params k segs := by
  intro segs
  induction segs with
  | nil => intro k _; rfl
  | cons s rest ih =>
    intro k h
    obtain ⟨p, L⟩ := s
    simp only [List.all_cons, Bool.and_eq_true, List.all_eq_true, decide_eq_true_eq] at h
    have hL : emit L = L := emit_ascii L h.1
    have hr : rest.all (fun s => s.2.all (fun c => c < 128)) = true := by
      simp only [List.all_eq_true, decide_eq_true_eq]; exact h.2
    simp only [fillSegs, substitute, hL, ih (k + 1) hr]

/-- URL generation on a pattern with ASCII literals. For a registered page
whose path is `L0 p1 L1 ... pk Lk` in segment form with ASCII literals, and
exactly `k ≥ 1` parameters, `pageUrl` returns without error the path with
each placeholder replaced by the `%v` form of its parameter (nothing for
nil) and every literal copied. -/
theorem pageUrl_substitutes_ascii (pm : PM) (pageId : GoString) (P : Page)
    (L0 : GoString) (segs : List (GoString × GoString)) (params : List Iface)
    (hP : pm.page pageId = Run.ret P) (hpath : P.path = assemble L0 segs)
    (hk : segs ≠ []) (hL : ∀ c ∈ L0, IsMetaChar c = false) (hwf : wfSegs segs = true)
    (hascii : asciiLiterals L0 segs = true) (hlen : params.length = segs.length) :
    pm.pageUrl pageId params = Run.ret (L0 ++ substitute params 0 segs, none) := by
  have hn : params ≠ [] := by
    intro h; rw [h] at hlen
    exact hk (List.eq_nil_of_length_eq_zero hlen.symm)
  simp only [asciiLiterals, Bool.and_eq_true] at hascii
  have h0 : emit L0 = L0 :=
    emit_ascii L0 (by simpa [List.all_eq_true] using hascii.1)
  simp only [PM.pageUrl, hP, hpath]
  rw [pageUrlOf_segs pageId L0 segs params hn hL hwf, h0,
    fillSegs_ascii params segs 0 hascii.2]
  simp [hlen]

/-- Evaluation for C3: path `/user/:id` with params `["42"]` gives `/user/42`. -/
theorem pageUrl_user_42 :
    (demoPM (gostr "/app")).pageUrl (gostr "user") [Iface.val (gostr "42")]
      = Run.ret (gostr "/user/42", none) := by
  decide

/-- C3 (failing input). For page `menu` at `/café/:id` and params `["42"]`,
`pageUrl` does not return `/café/42`: the two bytes of the literal `é`
(195, 169) come out as the four bytes 195, 131, 194, 169, because the loop
appends `string(route[i])` of each byte. -/
theorem pageUrl_mangles_non_ascii_literal :
    (demoPM (gostr "/app")).pageUrl (gostr "menu") [Iface.val (gostr "42")]
      = Run.ret ([47, 99, 97, 102, 195, 131, 194, 169, 47, 52, 50], none) ∧
    gostr "/café/42" = [47, 99, 97, 102, 195, 169, 47, 52, 50] ∧
    (demoPM (gostr "/app")).pageUrl (gostr "menu") [Iface.val (gostr "42")]
      ≠ Run.ret (gostr "/café/42", none) := by
  decide

/-! ## Round trip: the generated path determines the parameters (C2) -/

theorem takeWhile_append_stop {α : Type} (p : α → Bool) (a b : List α)
    (ha : ∀ x ∈ a, p x = true) (hb : ∀ x r, b = x :: r → p x = false) :
    (a ++ b).takeWhile p = a ∧ (a ++ b).dropWhile p = b := by
  induction a with
  | nil =>
    cases b with
    | nil => simp
    | cons x r =>
      have := hb x r rfl
      simp [List.takeWhile_cons, List.dropWhile_cons, this]
  | cons y ys ih =>
    have hy : p y = true := ha y (by simp)
    have := ih (fun x hx => ha x (by simp [hx]))
    simp [List.takeWhile_cons, List.dropWhile_cons, hy, this.1, this.2]

theorem emit_separator (c : Nat) (h : isSeparator c = true) : utf8EncodeRune c = [c] := by
  have hc : c < 128 := by
    simp only [isSeparator, Bool.or_eq_true, beq_iff_eq] at h
    omega
  simp [utf8EncodeRune, hc]

theorem fillVals_head_sep (L : GoString) (rest : List (GoString × GoString))
    (vs : List GoString)
    (hsep : (match L with
      | [] => rest.isEmpty
      | c :: _ => isSeparator c) = true) :
    ∀ x r, emit L ++ fillVals vs rest = x :: r → (!isSeparator x) = false := by
  intro x r h
  cases L with
  | nil =>
    simp only [List.isEmpty_iff] at hsep
    subst hsep
    cases vs <;> simp [fillVals, emit] at h
  | cons l ls =>
    have hs : isSeparator l = true := hsep
    simp only [emit, List.flatMap_cons, emit_separator l hs, List.singleton_append,
      List.cons_append, List.cons.injEq] at h
    rw [← h.1]; simp [hs]

theorem fillVals_injective :
    ∀ (segs : List (GoString × GoString)) (vals vals1 : List GoString),
      wfSegs segs = true → vals.length = segs.length → vals1.length = segs.length →
      (∀ v ∈ vals, ∀ c ∈ v, isSeparator c = false) →
      (∀ v ∈ vals1, ∀ c ∈ v, isSeparator c = false) →
      fillVals vals segs = fillVals vals1 segs → vals = vals1 := by
  intro segs
  induction segs with
  | nil =>
    intro vals vals1 _ h1 h2 _ _ _
    have e : vals = [] := List.eq_nil_of_length_eq_zero (by simpa using h1)
    have e1 : vals1 = [] := List.eq_nil_of_length_eq_zero (by simpa using h2)
    rw [e, e1]
  | cons s rest ih =>
    intro vals vals1 hwf h1 h2 hv hv1 heq
    obtain ⟨p, L⟩ := s
    cases vals with
    | nil => simp at h1
    | cons v vs =>
      cases vals1 with
      | nil => simp at h2
      | cons w ws =>
        cases p with
        | nil => simp [wfSegs] at hwf
        | cons m body =>
          simp only [wfSegs, Bool.and_eq_true, List.all_eq_true, Bool.not_eq_true'] at hwf
          obtain ⟨⟨⟨_, _⟩, hsep⟩, hrest⟩ := hwf
          simp only [fillVals] at heq
          have a1 := takeWhile_append_stop (fun b => !isSeparator b) v
            (emit L ++ fillVals vs rest)
            (fun x hx => by simp [hv v (by simp) x hx]) (fillVals_head_sep L rest vs hsep)
          have a2 := takeWhile_append_stop (fun b => !isSeparator b) w
            (emit L ++ fillVals ws rest)
            (fun x hx => by simp [hv1 w (by simp) x hx]) (fillVals_head_sep L rest ws hsep)
          have hvw : v = w := by rw [← a1.1, ← a2.1, heq]
          have htail : emit L ++ fillVals vs rest = emit L ++ fillVals ws rest := by
            rw [← a1.2, ← a2.2, heq]
          have := ih vs ws hrest (by simpa using h1) (by simpa using h2)
            (fun x hx => hv x (by simp [hx])) (fun x hx => hv1 x (by simp [hx]))
            (List.append_cancel_left htail)
          rw [hvw, this]

theorem fillSegs_vals (vals : List GoString) :
    ∀ (segs : List (GoString × GoString)) (k : Nat),
      (vals.drop k).length = segs.length →
      fillSegs (vals.map Iface.val) k segs = fillVals (vals.drop k) segs := by
  intro segs
  induction segs with
  | nil => intro k _; cases vals.drop k <;> rfl
  | cons s rest ih =>
    intro k h
    obtain ⟨p, L⟩ := s
    cases hd : vals.drop k with
    | nil => rw [hd] at h; simp at h
    | cons v vs =>
      have hk : k < vals.length := by
        by_contra hc
        rw [List.drop_eq_nil_of_le (by omega)] at hd
        exact List.noConfusion hd
      have hget : (vals.map Iface.val).get? k = some (Iface.val v) := by
        have h0 : vals.get? k = (vals.drop k).head? := by
          simp [List.head?_drop]
        simp only [List.get?_eq_getElem?, List.getElem?_map] at h0 ⊢
        rw [h0, hd]; rfl
      have hvs : vals.drop (k + 1) = vs := by
        have := List.drop_drop 1 k vals
        rw [hd] at this
        simpa [Nat.add_comm] using this.symm
      have hlen : (vals.drop (k + 1)).length = rest.length := by
        rw [hd] at h; rw [hvs]; simpa using h
      simp only [fillSegs, fillVals, paramStr, hget, ih (k + 1) hlen, hvs]

/-- C2 (amended). For every registered page `P` whose path declares `k`
placeholders, `pageUrl(P.id, T)` returns a path without error for every
tuple `T` of `k` non-nil parameters, and on the tuples whose string forms
contain no byte that ends a placeholder (`'/'`, `'#'`) the path determines
the tuple: two such tuples that generate the same path have the same string
forms, in order. So the generated path fixes page and parameter values
that a lookup of it has to yield; the lookup itself belongs to the router
library. -/
theorem pageUrl_path_determines_params (pm : PM) (pageId : GoString) (P : Page)
    (vals vals1 : List GoString)
    (hP : pm.page pageId = Run.ret P)
    (hk : vals.length = (ParamNames P.path).length)
    (hk1 : vals1.length = (ParamNames P.path).length)
    (hv : ∀ v ∈ vals, ∀ c ∈ v, isSeparator c = false)
    (hv1 : ∀ v ∈ vals1, ∀ c ∈ v, isSeparator c = false) :
    ∃ u u1, pm.pageUrl pageId (vals.map Iface.val) = Run.ret (u, none) ∧
      pm.pageUrl pageId (vals1.map Iface.val) = Run.ret (u1, none) ∧
      (u = u1 → vals = vals1) := by
  obtain ⟨L0, segs, hr, hL, hwf⟩ := exists_segments P.path.length P.path (le_refl _)
  have hnames : ParamNames P.path = segs.map Prod.fst := by
    rw [hr]; exact ParamNames_assemble L0 segs hL hwf
  have hlen : vals.length = segs.length := by rw [hk, hnames]; simp
  have hlen1 : vals1.length = segs.length := by rw [hk1, hnames]; simp
  cases hs : segs with
  | nil =>
    have e : vals = [] := List.eq_nil_of_length_eq_zero (by rw [hlen, hs]; rfl)
    have e1 : vals1 = [] := List.eq_nil_of_length_eq_zero (by rw [hlen1, hs]; rfl)
    subst e; subst e1
    refine ⟨P.path, P.path, ?_, ?_, fun _ => rfl⟩ <;>
      simp only [PM.pageUrl, hP, pageUrlOf, List.map_nil, List.length_nil, if_true]
  | cons s ss =>
    have hn : ∀ ws : List GoString, ws.length = segs.length → ws.map Iface.val ≠ [] := by
      intro ws hws h
      have : ws.length = 0 := by simpa using congrArg List.length h
      rw [hws, hs] at this
      simp at this
    have hurl : ∀ ws : List GoString, ws.length = segs.length →
        pm.pageUrl pageId (ws.map Iface.val)
          = Run.ret (emit L0 ++ fillVals ws segs, none) := by
      intro ws hws
      simp only [PM.pageUrl, hP, hr]
      rw [pageUrlOf_segs pageId L0 segs (ws.map Iface.val) (hn ws hws) hL hwf,
        fillSegs_vals ws segs 0 (by simpa using hws)]
      simp [hws]
    refine ⟨emit L0 ++ fillVals vals segs, emit L0 ++ fillVals vals1 segs, ?_, ?_, ?_⟩
    · exact hurl vals hlen
    · exact hurl vals1 hlen1
    · intro h
      exact fillVals_injective segs vals vals1 hwf hlen hlen1 hv hv1
        (List.append_cancel_left h)

/-- Witness of C2 (amended): page `pair` at `/pair/:a/:b` with the tuples
`("x", "y")` and `("x", "z")`. -/
theorem pageUrl_path_determines_params_witness :
    ∃ u u1, (demoPM (gostr "/app")).pageUrl (gostr "pair")
        ([gostr "x", gostr "y"].map Iface.val) = Run.ret (u, none) ∧
      (demoPM (gostr "/app")).pageUrl (gostr "pair")
        ([gostr "x", gostr "z"].map Iface.val) = Run.ret (u1, none) ∧
      (u = u1 → [gostr "x", gostr "y"] = [gostr "x", gostr "z"]) :=
  pageUrl_path_determines_params (demoPM (gostr "/app")) (gostr "pair") pairPage
    [gostr "x", gostr "y"] [gostr "x", gostr "z"] rfl (by decide) (by decide)
    (by decide) (by decide)

/-- C2 (counterexample). For page `pair` at `/pair/:a/:b`, which declares
two placeholders, the parameter tuples `("x/y", "z")` and `("x", "y/z")`
both generate `/pair/x/y/z` without error, while their string forms differ:
whatever the lookup function and whatever the two parameter names, no lookup
of that path returns the parameter list of both tuples. -/
theorem round_trip_fails_on_slash_values :
    (demoPM (gostr "/app")).page (gostr "pair") = Run.ret pairPage ∧
    (ParamNames pairPage.path).length = 2 ∧
    (demoPM (gostr "/app")).pageUrl (gostr "pair")
        [Iface.val (gostr "x/y"), Iface.val (gostr "z")]
      = Run.ret (gostr "/pair/x/y/z", none) ∧
    (demoPM (gostr "/app")).pageUrl (gostr "pair")
        [Iface.val (gostr "x"), Iface.val (gostr "y/z")]
      = Run.ret (gostr "/pair/x/y/z", none) ∧
    (¬ ∃ (lk : GoString → Option (Page × List Param)) (names : List GoString),
      names.length = 2 ∧
      lk (gostr "/pair/x/y/z")
        = some (pairPage, List.zipWith Param.mk names [gostr "x/y", gostr "z"]) ∧
      lk (gostr "/pair/x/y/z")
        = some (pairPage, List.zipWith Param.mk names [gostr "x", gostr "y/z"])) := by
  refine ⟨rfl, by decide, by decide, by decide, ?_⟩
  rintro ⟨lk, names, hn, h1, h2⟩
  rw [h1] at h2
  have h3 := congrArg (fun o => o.map (fun q => q.2)) h2
  simp only [Option.map_some', Option.some.injEq] at h3
  match names, hn with
  | [a, b], _ =>
    simp only [List.zipWith_cons_cons, List.cons.injEq, Param.mk.injEq] at h3
    exact absurd h3.1.2 (by decide)

/-! ## The page transition: a call that leaves the current page in place -/

theorem bind_currentPage (env : Collab) (pm : PM) (params : List (GoString × GoString))
    (pm1 : PM) (h : (PM.bind env pm params).state? = some pm1) :
    pm1.currentPage = pm.currentPage ∧ pm1.history = pm.history := by
  unfold PM.bind at h
  split at h
  · simp only [Exec.state?, Option.some.injEq] at h
    subst h; exact ⟨rfl, rfl⟩
  · dsimp only at h
    split at h
    · simp only [Exec.state?, Option.some.injEq] at h
      subst h; exact ⟨rfl, rfl⟩
    · simp only [Exec.state?, Option.some.injEq] at h
      subst h; exact ⟨rfl, rfl⟩

theorem remount_currentPage (env : Collab) (pm : PM) (page : Page)
    (params : List (GoString × GoString)) (pm1 : PM)
    (h : (PM.remount env pm page params).state? = some pm1) :
    pm1.currentPage = some page ∧ pm1.history = pm.history := by
  unfold PM.remount at h
  simp only at h
  split at h
  · simp only [Exec.state?, Option.some.injEq] at h
    subst h; exact ⟨rfl, rfl⟩
  · split at h
    · simp only [Exec.state?, Option.some.injEq] at h
      subst h; exact ⟨rfl, rfl⟩
    · split at h
      · rename_i pm5 hb
        simp only [Exec.state?, Option.some.injEq] at h
        have := bind_currentPage env _ params pm5 (by rw [hb]; rfl)
        subst h; exact ⟨this.1, this.2⟩
      · rename_i r hr
        have := bind_currentPage env _ params pm1 h
        exact ⟨this.1, this.2⟩

theorem samePageState_refl (pm : PM) : pm.samePageState pm :=
  ⟨rfl, rfl, rfl, rfl, rfl, rfl, rfl, rfl, rfl⟩

/-- Whenever `updatePage(url, pushState)` returns with the page that was
current before still current, the call was a no-op on the page state:
current page, current Scope, working and real container content, document
title, watcher calls and controller invocations are unchanged. The history
only gained calls, and with `pushState = false` none of them is a
`PushState`. -/
theorem updatePage_same_page_frame (env : Collab) :
    ∀ (fuel : Nat) (pm : PM) (url : GoString) (pushState : Bool) (pm1 : PM),
      PM.updatePage env fuel pm url pushState = Exec.done pm1 →
      pm1.currentPtr = pm.currentPtr →
      pm.samePageState pm1 ∧
      ∃ added, pm1.history = pm.history ++ added ∧
        (pushState = false → ∀ h ∈ added, h.isPushState = false) := by
  intro fuel
  induction fuel with
  | zero => intro pm url pushState pm1 h _; simp [PM.updatePage] at h
  | succ n ih =>
    intro pm url pushState pm1 h hptr
    -- the part of the call after the path is resolved
    have key : ∀ (path : GoString) (pm0 : PM) (extra : List HistoryCall),
        pm.samePageState pm0 → pm0.history = pm.history ++ extra →
        (∀ h ∈ extra, h.isPushState = false) →
        (match pm0.router path with
          | none =>
            match pm0.notFoundPage with
            | some nf => PM.updatePage env n pm0 nf.path false
            | none => Exec.panicked (gostr "Page not found. No 404 page declared.") pm0
          | some (page, routeparams) =>
            if (if pushState then
                  pm0.callHistory (HistoryCall.PushState page.title (pm0.Fullpath path))
                else pm0).currentPage.map (fun p => p.ptr) ≠ some page.ptr then
              PM.remount env
                (if pushState then
                  pm0.callHistory (HistoryCall.PushState page.title (pm0.Fullpath path))
                else pm0) page
                (routeparams.foldl (fun m p => mapSet m p.Name p.Value) [])
            else Exec.done
                (if pushState then
                  pm0.callHistory (HistoryCall.PushState page.title (pm0.Fullpath path))
                else pm0)) = Exec.done pm1 →
        pm.samePageState pm1 ∧
        ∃ added, pm1.history = pm.history ++ added ∧
          (pushState = false → ∀ h ∈ added, h.isPushState = false) := by
      intro path pm0 extra hsame hhist hextra hrun
      have hptr0 : pm0.currentPtr = pm.currentPtr := by
        simp only [PM.currentPtr, hsame.1]
      cases hr : pm0.router path with
      | none =>
        rw [hr] at hrun
        cases hnf : pm0.notFoundPage with
        | none => rw [hnf] at hrun; exact Exec.noConfusion hrun
        | some nf =>
          rw [hnf] at hrun
          have hptr1 : pm1.currentPtr = pm0.currentPtr := by rw [hptr, hptr0]
          obtain ⟨hs, added, ha, hp⟩ := ih pm0 nf.path false pm1 hrun hptr1
          refine ⟨?_, extra ++ added, by rw [ha, hhist, List.append_assoc], ?_⟩
          · obtain ⟨a1, a2, a3, a4, a5, a6, a7, a8, a9⟩ := hs
            obtain ⟨b1, b2, b3, b4, b5, b6, b7, b8, b9⟩ := hsame
            exact ⟨a1.trans b1, a2.trans b2, a3.trans b3, a4.trans b4, a5.trans b5,
              a6.trans b6, a7.trans b7, a8.trans b8, a9.trans b9⟩
          · intro _ h hh
            rcases List.mem_append.mp hh with h1 | h1
            · exact hextra h h1
            · exact hp rfl h h1
      | some pr =>
        obtain ⟨page, routeparams⟩ := pr
        rw [hr] at hrun
        dsimp only at hrun
        have hcur : ∀ c, (pm0.callHistory c).currentPage = pm0.currentPage := fun _ => rfl
        by_cases hne : pm0.currentPage.map (fun p => p.ptr) ≠ some page.ptr
        · exfalso
          have hrem : ∃ pm2, (PM.remount env pm2 page
              (routeparams.foldl (fun m p => mapSet m p.Name p.Value) [])) = Exec.done pm1 := by
            cases pushState
            · simp only [Bool.false_eq_true, if_false] at hrun
              rw [if_pos hne] at hrun
              exact ⟨_, hrun⟩
            · simp only [if_true, hcur] at hrun
              rw [if_pos hne] at hrun
              exact ⟨_, hrun⟩
          obtain ⟨pm2, hrem⟩ := hrem
          have hc := remount_currentPage env pm2 page _ pm1 (by rw [hrem]; rfl)
          apply hne
          have h2 : pm1.currentPtr = some page.ptr := by
            simp only [PM.currentPtr, hc.1, Option.map_some']
          rw [hptr, ← hptr0] at h2
          exact h2
        · cases pushState
          · simp only [Bool.false_eq_true, if_false] at hrun
            rw [if_neg hne] at hrun
            simp only [Exec.done.injEq] at hrun
            subst hrun
            exact ⟨hsame, extra, hhist, fun _ => hextra⟩
          · simp only [if_true, hcur] at hrun
            rw [if_neg hne] at hrun
            simp only [Exec.done.injEq] at hrun
            subst hrun
            refine ⟨hsame, extra ++ [HistoryCall.PushState page.title (pm0.Fullpath path)],
              ?_, fun hf => Bool.noConfusion hf⟩
            simp only [PM.callHistory, hhist, List.append_assoc]
    simp only [PM.updatePage] at h
    split at h
    · exact Exec.noConfusion h
    · exact Exec.noConfusion h
    · rename_i path pm0 hres
      split at hres
      · split at hres
        · rename_i startPage _
          simp only [Run.ret.injEq, Prod.mk.injEq] at hres
          obtain ⟨hp, hpm⟩ := hres
          subst hp; subst hpm
          exact key _
            (pm.callHistory
              (HistoryCall.ReplaceState startPage.title (pm.Fullpath startPage.path)))
            [HistoryCall.ReplaceState startPage.title (pm.Fullpath startPage.path)]
            (samePageState_refl pm) rfl (by simp [HistoryCall.isPushState]) h
        · exact Run.noConfusion hres
        · exact Run.noConfusion hres
      · simp only [Run.ret.injEq, Prod.mk.injEq] at hres
        obtain ⟨hp, hpm⟩ := hres
        subst hp; subst hpm
        exact key _ _ [] (samePageState_refl pm) (by simp) (by simp) h

/-- C4 (counterexample). With page `user` current and an empty history log,
`/app/user/43` resolves to `user` again, and `updatePage` with
`pushState = true` returns having called `PushState("User", "/app/user/43")`
on the history. -/
theorem commit_guard_still_pushes_history :
    demoAtUser.currentPtr = some userPage.ptr ∧
    (demoAtUser.router (demoAtUser.cutPath (gostr "/app/user/43"))).map
        (fun r => r.1.ptr) = some userPage.ptr ∧
    demoAtUser.history = [] ∧
    ∃ pm1, PM.updatePage idCollab 1 demoAtUser (gostr "/app/user/43") true = Exec.done pm1 ∧
      pm1.history = [HistoryCall.PushState (gostr "User") (gostr "/app/user/43")] :=
  ⟨rfl, by decide, rfl, _, rfl, by decide⟩

/-! ## The page transition: what a call of `updatePage` amounts to -/

theorem bind_done (env : Collab) (pm : PM) (params : List (GoString × GoString))
    (pm1 : PM) (h : PM.bind env pm params = Exec.done pm1) :
    ∃ cur s n, pm.currentPage = some cur ∧
      runControllers (pm.controllersFor cur) (newRootScope cur params) = (s, n, none) ∧
      pm1.pc = some s := by
  unfold PM.bind at h
  split at h
  · exact Exec.noConfusion h
  · rename_i cur hc
    dsimp only at h
    split at h
    · exact Exec.noConfusion h
    · rename_i s1 n hrun
      simp only [Exec.done.injEq] at h
      subst h
      exact ⟨cur, s1, n, hc, hrun, rfl⟩

theorem bind_panicked (env : Collab) (pm : PM) (params : List (GoString × GoString))
    (m : GoString) (pm1 : PM) (h : PM.bind env pm params = Exec.panicked m pm1) :
    pm1.pc = pm.pc := by
  unfold PM.bind at h
  split at h
  · simp only [Exec.panicked.injEq] at h
    rw [← h.2]
  · dsimp only at h
    split at h
    · simp only [Exec.panicked.injEq] at h
      rw [← h.2]
    · exact Exec.noConfusion h

theorem bind_not_diverge (env : Collab) (pm : PM) (params : List (GoString × GoString)) :
    PM.bind env pm params ≠ Exec.diverge := by
  unfold PM.bind
  split
  · exact fun h => Exec.noConfusion h
  · dsimp only
    split <;> exact fun h => Exec.noConfusion h

theorem remount_done (env : Collab) (pm : PM) (page : Page)
    (params : List (GoString × GoString)) (pm1 : PM)
    (h : PM.remount env pm page params = Exec.done pm1) :
    ∃ s n, runControllers (pm.controllersFor page) (newRootScope page params) = (s, n, none) ∧
      pm1.pc = some s := by
  unfold PM.remount at h
  simp only at h
  split at h
  · exact Exec.noConfusion h
  · split at h
    · exact Exec.noConfusion h
    · split at h
      · rename_i pm5 hb
        simp only [Exec.done.injEq] at h
        obtain ⟨cur, s, n, hc, hr, hp⟩ := bind_done env _ params pm5 hb
        simp only [Option.some.injEq] at hc
        subst hc
        subst h
        exact ⟨s, n, hr, hp⟩
      · rename_i r hr
        exact absurd h (hr pm1)

theorem remount_panicked (env : Collab) (pm : PM) (page : Page)
    (params : List (GoString × GoString)) (m : GoString) (pm1 : PM)
    (h : PM.remount env pm page params = Exec.panicked m pm1) :
    pm1.pc = pm.pc := by
  unfold PM.remount at h
  simp only at h
  split at h
  · simp only [Exec.panicked.injEq] at h
    rw [← h.2]
  · split at h
    · simp only [Exec.panicked.injEq] at h
      rw [← h.2]
    · split at h
      · exact Exec.noConfusion h
      · have := bind_panicked env _ params m pm1 h
        exact this

theorem remount_not_diverge (env : Collab) (pm : PM) (page : Page)
    (params : List (GoString × GoString)) :
    PM.remount env pm page params ≠ Exec.diverge := by
  unfold PM.remount
  simp only
  split
  · exact fun h => Exec.noConfusion h
  · split
    · exact fun h => Exec.noConfusion h
    · split
      · exact fun h => Exec.noConfusion h
      · exact bind_not_diverge env _ params

theorem with_history_nil (pm : PM) : pm = { pm with history := pm.history ++ [] } := by
  cases pm; simp

/-- Every outcome of `updatePage` other than a divergence goes back to a
state `pm0` that differs from the initial one in the history log only, on
which the call panicked while resolving, returned at the commit guard, or
remounted a page other than the current one. -/
theorem updatePage_cases (env : Collab) :
    ∀ (fuel : Nat) (pm : PM) (url : GoString) (pushState : Bool),
      PM.updatePage env fuel pm url pushState = Exec.diverge ∨
      ∃ pm0 added, pm0 = { pm with history := pm.history ++ added } ∧
        (pushState = false → ∀ h ∈ added, h.isPushState = false) ∧
        ((∃ m, PM.updatePage env fuel pm url pushState = Exec.panicked m pm0) ∨
         (PM.updatePage env fuel pm url pushState = Exec.done pm0) ∨
         (∃ page params, pm0.currentPtr ≠ some page.ptr ∧
            PM.updatePage env fuel pm url pushState = PM.remount env pm0 page params)) := by
  intro fuel
  induction fuel with
  | zero => intro pm url pushState; exact Or.inl rfl
  | succ n ih =>
    intro pm url pushState
    have key : ∀ (path : GoString) (pm0 : PM) (extra : List HistoryCall),
        pm0 = { pm with history := pm.history ++ extra } →
        (∀ h ∈ extra, h.isPushState = false) →
        ∀ r, r = (match pm0.router path with
          | none =>
            match pm0.notFoundPage with
            | some nf => PM.updatePage env n pm0 nf.path false
            | none => Exec.panicked (gostr "Page not found. No 404 page declared.") pm0
          | some (page, routeparams) =>
            if (if pushState then
                  pm0.callHistory (HistoryCall.PushState page.title (pm0.Fullpath path))
                else pm0).currentPage.map (fun p => p.ptr) ≠ some page.ptr then
              PM.remount env
                (if pushState then
                  pm0.callHistory (HistoryCall.PushState page.title (pm0.Fullpath path))
                else pm0) page
                (routeparams.foldl (fun m p => mapSet m p.Name p.Value) [])
            else Exec.done
                (if pushState then
                  pm0.callHistory (HistoryCall.PushState page.title (pm0.Fullpath path))
                else pm0)) →
        r = Exec.diverge ∨
        ∃ pm2 added, pm2 = { pm with history := pm.history ++ added } ∧
          (pushState = false → ∀ h ∈ added, h.isPushState = false) ∧
          ((∃ m, r = Exec.panicked m pm2) ∨ (r = Exec.done pm2) ∨
           (∃ page params, pm2.currentPtr ≠ some page.ptr ∧
              r = PM.remount env pm2 page params)) := by
      intro path pm0 extra hpm0 hextra r hrun
      cases hr : pm0.router path with
      | none =>
        rw [hr] at hrun
        cases hnf : pm0.notFoundPage with
        | none =>
          rw [hnf] at hrun
          exact Or.inr ⟨pm0, extra, hpm0, fun _ => hextra, Or.inl ⟨_, hrun⟩⟩
        | some nf =>
          rw [hnf] at hrun
          dsimp only at hrun
          rcases ih pm0 nf.path false with hd | ⟨pm2, added, hs, hp, hcase⟩
          · exact Or.inl (by rw [hrun, hd])
          · right
            refine ⟨pm2, extra ++ added, ?_, ?_, ?_⟩
            · rw [hs, hpm0]; simp only [List.append_assoc]
            · intro _ h hh
              rcases List.mem_append.mp hh with h1 | h1
              · exact hextra h h1
              · exact hp rfl h h1
            · rw [hrun]; exact hcase
      | some pr =>
        obtain ⟨page, routeparams⟩ := pr
        rw [hr] at hrun
        dsimp only at hrun
        right
        have hcur : ∀ c, (pm0.callHistory c).currentPage = pm0.currentPage := fun _ => rfl
        cases pushState
        · simp only [Bool.false_eq_true, if_false] at hrun
          refine ⟨pm0, extra, hpm0, fun _ => hextra, ?_⟩
          by_cases hne : pm0.currentPage.map (fun p => p.ptr) ≠ some page.ptr
          · rw [if_pos hne] at hrun
            exact Or.inr (Or.inr ⟨page, _, hne, hrun⟩)
          · rw [if_neg hne] at hrun
            exact Or.inr (Or.inl hrun)
        · simp only [if_true, hcur] at hrun
          refine ⟨pm0.callHistory (HistoryCall.PushState page.title (pm0.Fullpath path)),
            extra ++ [HistoryCall.PushState page.title (pm0.Fullpath path)], ?_,
            fun hf => Bool.noConfusion hf, ?_⟩
          · rw [hpm0]; simp only [PM.callHistory, List.append_assoc]
          by_cases hne : pm0.currentPage.map (fun p => p.ptr) ≠ some page.ptr
          · rw [if_pos hne] at hrun
            exact Or.inr (Or.inr ⟨page, _, hne, hrun⟩)
          · rw [if_neg hne] at hrun
            exact Or.inr (Or.inl hrun)
    cases hcut : decide (pm.cutPath url = [] ∨ pm.cutPath url = gostr "/") with
    | false =>
      have hc : ¬ (pm.cutPath url = [] ∨ pm.cutPath url = gostr "/") := by
        simpa using hcut
      refine key (pm.cutPath url) pm [] (with_history_nil pm) (by simp) _ ?_
      simp only [PM.updatePage, hc, if_false]
    | true =>
      have hc : pm.cutPath url = [] ∨ pm.cutPath url = gostr "/" := by
        simpa using hcut
      cases hsp : pm.page pm.startPageId with
      | ret startPage =>
        refine key startPage.path
          (pm.callHistory
            (HistoryCall.ReplaceState startPage.title (pm.Fullpath startPage.path)))
          [HistoryCall.ReplaceState startPage.title (pm.Fullpath startPage.path)]
          rfl (by simp [HistoryCall.isPushState]) _ ?_
        simp only [PM.updatePage, hc, if_true, hsp]
      | panic m =>
        right
        refine ⟨pm, [], with_history_nil pm, by simp, Or.inl ⟨m, ?_⟩⟩
        simp only [PM.updatePage, hc, if_true, hsp]
      | diverge =>
        left
        simp only [PM.updatePage, hc, if_true, hsp]

/-! ## The page transition: the current page and the current Scope (C7) -/

/-- C7 (amended). A call of `updatePage` does not write `pm.pc` before all
controllers of the transition have completed. If the call panics, a failing
controller included, `CurrentPage()` still reports the Scope bound before.
If it returns, `pm.pc` is unchanged or it is the Scope on which every
controller collected for the new current page returned without error. -/
theorem updatePage_writes_pc_after_controllers (env : Collab) (fuel : Nat) (pm : PM)
    (url : GoString) (pushState : Bool) :
    (∀ m out, PM.updatePage env fuel pm url pushState = Exec.panicked m out →
      out.CurrentPage = pm.CurrentPage) ∧
    (∀ out, PM.updatePage env fuel pm url pushState = Exec.done out →
      out.CurrentPage = pm.CurrentPage ∨
      ∃ page params s n, out.currentPage = some page ∧
        runControllers (pm.controllersFor page) (newRootScope page params) = (s, n, none) ∧
        out.CurrentPage = some s) := by
  rcases updatePage_cases env fuel pm url pushState with hd | ⟨pm0, added, hpm0, _, hcase⟩
  · rw [hd]
    exact ⟨fun _ _ h => Exec.noConfusion h, fun _ h => Exec.noConfusion h⟩
  · have hpc : pm0.pc = pm.pc := by rw [hpm0]
    have hctl : ∀ page, pm0.controllersFor page = pm.controllersFor page := by
      intro page; rw [hpm0]; rfl
    rcases hcase with ⟨m0, hp⟩ | hdone | ⟨page, params, _, hrem⟩
    · rw [hp]
      refine ⟨fun m out h => ?_, fun _ h => Exec.noConfusion h⟩
      simp only [Exec.panicked.injEq] at h
      rw [← h.2]; exact hpc
    · rw [hdone]
      refine ⟨fun _ _ h => Exec.noConfusion h, fun out h => Or.inl ?_⟩
      simp only [Exec.done.injEq] at h
      rw [← h]; exact hpc
    · rw [hrem]
      refine ⟨fun m out h => ?_, fun out h => Or.inr ?_⟩
      · exact (remount_panicked env pm0 page params m out h).trans hpc
      · obtain ⟨s, n, hr, hs⟩ := remount_done env pm0 page params out h
        have hc := remount_currentPage env pm0 page params out (by rw [h]; rfl)
        exact ⟨page, params, s, n, hc.1, by rw [← hctl]; exact hr, hs⟩

/-- Witness of C7 (amended): from page `user`, the transition to `/app/broken`
is aborted by the failing controller of page `broken`; the Scope reported by
`CurrentPage()` is still the one of page `user`. -/
theorem updatePage_writes_pc_after_controllers_witness :
    ∃ out, PM.updatePage idCollab 1 demoAtUser (gostr "/app/broken") false
        = Exec.panicked (gostr "controller failed") out ∧
      out.CurrentPage = demoAtUser.CurrentPage :=
  ⟨_, rfl,
    (updatePage_writes_pc_after_controllers idCollab 1 demoAtUser (gostr "/app/broken")
      false).1 _ _ rfl⟩

/-- C7 (counterexample). From page `user`, the transition to `/app/broken`
is aborted by the failing controller of page `broken`. In the state it
leaves, `CurrentPageId()` reports `broken`, not the previously bound `user`,
while `CurrentPage()` still reports the Scope of `user`. -/
theorem aborted_transition_reports_new_page :
    demoAtUser.CurrentPageId = Run.ret (gostr "user") ∧
    ∃ out, PM.updatePage idCollab 1 demoAtUser (gostr "/app/broken") false
        = Exec.panicked (gostr "controller failed") out ∧
      out.CurrentPageId = Run.ret (gostr "broken") ∧
      out.CurrentPage = demoAtUser.CurrentPage ∧
      out.controllerCalls = demoAtUser.controllerCalls + 1 :=
  ⟨by decide, _, rfl, by decide, rfl, rfl⟩

/-! ## The page transition: start page (C6) and not-found page (C5) -/

theorem remount_state (env : Collab) (pm : PM) (page : Page)
    (params : List (GoString × GoString)) :
    ∃ out, (PM.remount env pm page params).state? = some out ∧
      out.currentPtr = some page.ptr ∧ out.history = pm.history := by
  cases h : PM.remount env pm page params with
  | diverge => exact absurd h (remount_not_diverge env pm page params)
  | done out =>
    have := remount_currentPage env pm page params out (by rw [h]; rfl)
    exact ⟨out, rfl, by simp only [PM.currentPtr, this.1, Option.map_some'], this.2⟩
  | panicked m out =>
    have := remount_currentPage env pm page params out (by rw [h]; rfl)
    exact ⟨out, rfl, by simp only [PM.currentPtr, this.1, Option.map_some'], this.2⟩

/-- After the path is resolved to a route of `page`, the rest of
`updatePage` ends, with `page` current and with `PushState` logged exactly
when `pushState` is set. -/
theorem commit_state (env : Collab) (pm0 : PM) (page : Page) (path : GoString)
    (params : List (GoString × GoString)) (pushState : Bool) :
    ∃ out,
      (if (if pushState then
              pm0.callHistory (HistoryCall.PushState page.title (pm0.Fullpath path))
            else pm0).currentPage.map (fun p => p.ptr) ≠ some page.ptr then
          PM.remount env
            (if pushState then
              pm0.callHistory (HistoryCall.PushState page.title (pm0.Fullpath path))
            else pm0) page params
        else Exec.done
            (if pushState then
              pm0.callHistory (HistoryCall.PushState page.title (pm0.Fullpath path))
            else pm0)).state? = some out ∧
      out.currentPtr = some page.ptr ∧
      out.history = pm0.history ++
        (if pushState then [HistoryCall.PushState page.title (pm0.Fullpath path)] else []) := by
  have hcur : ∀ c, (pm0.callHistory c).currentPage = pm0.currentPage := fun _ => rfl
  cases pushState
  · simp only [Bool.false_eq_true, if_false, List.append_nil]
    by_cases hne : pm0.currentPage.map (fun p => p.ptr) ≠ some page.ptr
    · rw [if_pos hne]
      exact remount_state env pm0 page params
    · rw [if_neg hne]
      exact ⟨pm0, rfl, by simpa [PM.currentPtr] using hne, rfl⟩
  · simp only [if_true, hcur]
    by_cases hne : pm0.currentPage.map (fun p => p.ptr) ≠ some page.ptr
    · rw [if_pos hne]
      obtain ⟨out, h1, h2, h3⟩ := remount_state env
        (pm0.callHistory (HistoryCall.PushState page.title (pm0.Fullpath path))) page params
      exact ⟨out, h1, h2, h3⟩
    · rw [if_neg hne]
      exact ⟨_, rfl, by simpa [PM.currentPtr] using hne, rfl⟩

/-- C6 (amended). For every URL whose path is empty after the base path is
stripped, when the start page is registered and its path is matched by a
route of `page`, `updatePage(url, pushState)` ends with `page` current and
has made on the history exactly the call
`ReplaceState(start.title, Fullpath(start.path))`, followed, when
`pushState` is true, by `PushState(page.title, Fullpath(start.path))`; with
`pushState` false there is no `PushState` call. -/
theorem updatePage_empty_path_uses_start_page (env : Collab) (fuel : Nat) (pm : PM)
    (url : GoString) (pushState : Bool) (start page : Page) (rps : List Param)
    (hcut : pm.cutPath url = [])
    (hstart : pm.page pm.startPageId = Run.ret start)
    (hroute : pm.router start.path = some (page, rps)) :
    ∃ out, (PM.updatePage env (fuel + 1) pm url pushState).state? = some out ∧
      out.currentPtr = some page.ptr ∧
      out.history = pm.history ++
        HistoryCall.ReplaceState start.title (pm.Fullpath start.path) ::
          (if pushState then [HistoryCall.PushState page.title (pm.Fullpath start.path)]
           else []) := by
  have hr : (pm.callHistory
      (HistoryCall.ReplaceState start.title (pm.Fullpath start.path))).router start.path
      = some (page, rps) := hroute
  obtain ⟨out, h1, h2, h3⟩ := commit_state env
    (pm.callHistory (HistoryCall.ReplaceState start.title (pm.Fullpath start.path)))
    page start.path (rps.foldl (fun m p => mapSet m p.Name p.Value) []) pushState
  refine ⟨out, ?_, h2, ?_⟩
  · simp only [PM.updatePage, hcut, true_or, if_true, hstart, hr]
    exact h1
  · rw [h3]
    simp only [PM.callHistory, List.append_assoc, List.singleton_append]
    rfl

/-- Witness of C6 (amended): base path `/app`, URL `/app`, start page `home`
at `/`, `pushState` true. -/
theorem updatePage_empty_path_uses_start_page_witness :
    ∃ out, (PM.updatePage idCollab (0 + 1) (demoPM (gostr "/app")) (gostr "/app")
        true).state? = some out ∧
      out.currentPtr = some homePage.ptr ∧
      out.history = (demoPM (gostr "/app")).history ++
        HistoryCall.ReplaceState homePage.title
            ((demoPM (gostr "/app")).Fullpath homePage.path) ::
          (if true = true then
            [HistoryCall.PushState homePage.title
              ((demoPM (gostr "/app")).Fullpath homePage.path)]
           else []) :=
  updatePage_empty_path_uses_start_page idCollab 0 (demoPM (gostr "/app")) (gostr "/app")
    true homePage homePage [] (by decide) rfl rfl

/-- C6 (counterexample). With base path `/app`, the path of URL `/app` is
empty after the strip; `updatePage("/app", true)` calls
`ReplaceState("Home", "/app")` and then `PushState("Home", "/app")`. -/
theorem start_page_substitution_still_pushes :
    (demoPM (gostr "/app")).cutPath (gostr "/app") = [] ∧
    (demoPM (gostr "/app")).history = [] ∧
    ∃ out, PM.updatePage idCollab 1 (demoPM (gostr "/app")) (gostr "/app") true
        = Exec.done out ∧
      out.history = [HistoryCall.ReplaceState (gostr "Home") (gostr "/app"),
        HistoryCall.PushState (gostr "Home") (gostr "/app")] :=
  ⟨by decide, rfl, _, rfl, by decide⟩

/-- C5 (amended). For every URL whose path after the base-path strip is
neither empty nor `/` and matches no route, when a not-found page is
configured whose own path, after the strip that the recursive call applies
to it, is neither empty nor `/` and is matched by its route,
`updatePage(url, pushState)` ends, for both values of `pushState`, with the
not-found page current and without any call on the history. -/
theorem updatePage_not_found_fallback (env : Collab) (fuel : Nat) (pm : PM)
    (url : GoString) (pushState : Bool) (nf : Page) (rps : List Param)
    (h1 : pm.cutPath url ≠ []) (h2 : pm.cutPath url ≠ gostr "/")
    (h3 : pm.router (pm.cutPath url) = none)
    (hnf : pm.notFoundPage = some nf)
    (h4 : pm.cutPath nf.path ≠ []) (h5 : pm.cutPath nf.path ≠ gostr "/")
    (h6 : pm.router (pm.cutPath nf.path) = some (nf, rps)) :
    ∃ out, (PM.updatePage env (fuel + 2) pm url pushState).state? = some out ∧
      out.currentPtr = some nf.ptr ∧ out.history = pm.history := by
  obtain ⟨out, a1, a2, a3⟩ := commit_state env pm nf (pm.cutPath nf.path)
    (rps.foldl (fun m p => mapSet m p.Name p.Value) []) false
  refine ⟨out, ?_, a2, by simpa using a3⟩
  have hstep : PM.updatePage env (fuel + 2) pm url pushState
      = PM.updatePage env (fuel + 1) pm nf.path false := by
    simp only [PM.updatePage, h1, h2, or_self, if_false, h3, hnf]
  rw [hstep]
  simp only [PM.updatePage, h4, h5, or_self, if_false, h6]
  exact a1

/-- Witness of C5 (amended): base path `/app`, URL `/app/missing`, not-found
page at `/404`. -/
theorem updatePage_not_found_fallback_witness :
    ∃ out, (PM.updatePage idCollab (0 + 2) (demoPM (gostr "/app")) (gostr "/app/missing")
        true).state? = some out ∧
      out.currentPtr = some notFoundPage.ptr ∧
      out.history = (demoPM (gostr "/app")).history :=
  updatePage_not_found_fallback idCollab 0 (demoPM (gostr "/app")) (gostr "/app/missing")
    true notFoundPage [] (by decide) (by decide) rfl rfl (by decide) (by decide) rfl

theorem updatePage_default_base_diverges :
    ∀ fuel, PM.updatePage idCollab fuel (demoPM (newBasePath [])) (gostr "/404") false
      = Exec.diverge := by
  intro fuel
  induction fuel with
  | zero => rfl
  | succ n ih =>
    have hstep : PM.updatePage idCollab (n + 1) (demoPM (newBasePath [])) (gostr "/404") false
        = PM.updatePage idCollab n (demoPM (newBasePath [])) (gostr "/404") false := rfl
    rw [hstep, ih]

/-- C5 (counterexample). Two ways the claim fails. With base path `/app`,
the URL `/app` has the empty path after the strip, which matches no route,
and `updatePage` ends on the start page `home`, not on the not-found page.
With the base path `/` that an empty configuration gets, no route matches
the stripped path of `/missing`; the recursive call strips the not-found
path `/404` to `404`, which no route matches either, and `updatePage` never
ends, whatever the fuel. -/
theorem not_found_fallback_fails :
    ((demoPM (gostr "/app")).router ((demoPM (gostr "/app")).cutPath (gostr "/app"))).isNone
      = true ∧
    (∃ out, PM.updatePage idCollab 1 (demoPM (gostr "/app")) (gostr "/app") false
        = Exec.done out ∧ out.currentPtr = some homePage.ptr ∧
        out.currentPtr ≠ some notFoundPage.ptr) ∧
    ((demoPM (newBasePath [])).router
      ((demoPM (newBasePath [])).cutPath (gostr "/missing"))).isNone = true ∧
    (¬ ∃ fuel, PM.updatePage idCollab fuel (demoPM (newBasePath [])) (gostr "/missing") true
        ≠ Exec.diverge) := by
  refine ⟨by decide, ⟨_, rfl, by decide, by decide⟩, by decide, ?_⟩
  rintro ⟨fuel, h⟩
  apply h
  cases fuel with
  | zero => rfl
  | succ n =>
    have hstep : PM.updatePage idCollab (n + 1) (demoPM (newBasePath [])) (gostr "/missing") true
        = PM.updatePage idCollab n (demoPM (newBasePath [])) (gostr "/404") false := rfl
    rw [hstep]
    exact updatePage_default_base_diverges n

/-! ## The exclusion tree-walk (C9) -/

theorem filter_cons_chains (p : Label → Bool) (l : Label) (chs : List (List Label)) :
    (chs.map (fun ch => l :: ch)).filter (fun ch => ch.all p)
      = if p l then (chs.filter (fun ch => ch.all p)).map (fun ch => l :: ch) else [] := by
  induction chs with
  | nil => simp
  | cons ch rest ih =>
    by_cases hl : p l = true
    · simp only [hl, if_true] at ih ⊢
      simp only [List.map_cons, List.filter_cons, List.all_cons, hl, Bool.true_and, ih]
      by_cases hc : ch.all p = true
      · simp [hc]
      · simp [hc]
    · simp only [hl, if_false] at ih ⊢
      have hl2 : p l = false := by simpa using hl
      simp only [List.map_cons, List.filter_cons, List.all_cons, hl2, Bool.false_and, ih]
      simp

/-- C9. For an element tree in which each `w-belong` value names a registered
display scope, and a page manager with a current page, `walk(root, pm)`
returns without panic and leaves `root` itself in place; the chains of its
descendants afterwards are, in document order, exactly the chains of the
original tree on which every element passes the test of `walk`: it carries
no `w-belong`, or its `w-belong` names a scope `S` with
`S.hasPage(currentPage.id)`. So a descendant remains if and only if every
element on the chain from it up to (excluding) `root` passes; an element
whose scope excludes the current page goes with its whole subtree, and an
element without `w-belong` is never removed on its own account. -/
theorem walk_keeps_exactly_permitted_chains (pm : PM) (cur : Page)
    (hcur : pm.currentPage = some cur) (root : Elem) :
    (∀ ch ∈ descChains root, ∀ l ∈ ch, pm.belongRegistered l = true) →
    ∃ root1, walk pm root = (root1, none) ∧ root1.label = root.label ∧
      descChains root1 = (descChains root).filter (fun ch => ch.all (pm.keeps cur.id)) := by
  refine Elem.rec
    (motive_1 := fun e =>
      (∀ ch ∈ descChains e, ∀ l ∈ ch, pm.belongRegistered l = true) →
      ∃ e1, walk pm e = (e1, none) ∧ e1.label = e.label ∧
        descChains e1 = (descChains e).filter (fun ch => ch.all (pm.keeps cur.id)))
    (motive_2 := fun cs =>
      (∀ ch ∈ childChains cs, ∀ l ∈ ch, pm.belongRegistered l = true) →
      ∃ cs1, walkChildren pm cs = (cs1, none) ∧
        childChains cs1 = (childChains cs).filter (fun ch => ch.all (pm.keeps cur.id)))
    ?_ ?_ ?_ root
  · intro nid tag attrs children ih hreg
    obtain ⟨cs1, h1, h2⟩ := ih (by simpa [descChains] using hreg)
    refine ⟨⟨nid, tag, attrs, cs1⟩, ?_, rfl, ?_⟩
    · simp only [walk, h1]
    · simp only [descChains, h2]
  · intro _
    exact ⟨[], by simp [walkChildren], by simp [childChains]⟩
  · intro c cs ihc ihcs hreg
    have hregc : ∀ ch ∈ descChains c, ∀ l ∈ ch, pm.belongRegistered l = true := by
      intro ch hch l hl
      apply hreg (c.label :: ch)
      · simp only [childChains, List.cons_append, List.mem_cons, List.mem_append,
          List.mem_map]
        exact Or.inr (Or.inl ⟨ch, hch, rfl⟩)
      · simp [hl]
    have hregcs : ∀ ch ∈ childChains cs, ∀ l ∈ ch, pm.belongRegistered l = true := by
      intro ch hch l hl
      apply hreg ch
      · simp only [childChains, List.cons_append, List.mem_cons, List.mem_append]
        exact Or.inr (Or.inr hch)
      · exact hl
    have hself : pm.belongRegistered c.label = true := by
      apply hreg [c.label]
      · simp [childChains]
      · simp
    obtain ⟨c1, hc1, hlab, hch1⟩ := ihc hregc
    obtain ⟨cs1, hcs1, hchs1⟩ := ihcs hregcs
    -- the result when the child is walked and kept
    have hkept : pm.keeps cur.id c.label = true →
        childChains (c1 :: cs1)
          = (childChains (c :: cs)).filter (fun ch => ch.all (pm.keeps cur.id)) := by
      intro hk
      simp only [childChains, List.cons_append, List.filter_cons, List.filter_append,
        List.all_cons, List.all_nil, Bool.and_true, hk, if_true, filter_cons_chains,
        hlab, hch1, hchs1]
    have hdropped : pm.keeps cur.id c.label = false →
        childChains cs1
          = (childChains (c :: cs)).filter (fun ch => ch.all (pm.keeps cur.id)) := by
      intro hk
      simp only [childChains, List.cons_append, List.filter_cons, List.filter_append,
        List.all_cons, List.all_nil, Bool.and_true, hk, filter_cons_chains, hchs1]
      simp
    cases hattr : c.attrs.lookup (gostr "w-belong") with
    | none =>
      have hk : pm.keeps cur.id c.label = true := by
        simp only [PM.keeps, Elem.label, hattr]
      refine ⟨c1 :: cs1, ?_, hkept hk⟩
      simp only [walkChildren, hattr, hc1, hcs1]
    | some belong =>
      have hsome : (pm.displayScopes.lookup belong).isSome = true := by
        simpa only [PM.belongRegistered, Elem.label, hattr] using hself
      cases hds : pm.displayScopes.lookup belong with
      | none => rw [hds] at hsome; exact Bool.noConfusion hsome
      | some ds =>
        by_cases hp : ds.hasPage cur.id = true
        · have hk : pm.keeps cur.id c.label = true := by
            simp only [PM.keeps, Elem.label, hattr, hds, hp]
          refine ⟨c1 :: cs1, ?_, hkept hk⟩
          simp only [walkChildren, hattr, hds, hcur, hp, if_true, hc1, hcs1]
        · have hp2 : ds.hasPage cur.id = false := by simpa using hp
          have hk : pm.keeps cur.id c.label = false := by
            simp only [PM.keeps, Elem.label, hattr, hds, hp2]
          refine ⟨cs1, ?_, hdropped hk⟩
          simp only [walkChildren, hattr, hds, hcur, hp2, Bool.false_eq_true, if_false, hcs1]


/-- Witness of C9: with page `home` current, the tree
`root[a[b(w-belong=user)], c(w-belong=home)[d], e(w-belong=__global__)]`. -/
theorem walk_keeps_exactly_permitted_chains_witness :
    ∃ root1, walk demoAtHome demoTree = (root1, none) ∧ root1.label = demoTree.label ∧
      descChains root1
        = (descChains demoTree).filter (fun ch => ch.all (demoAtHome.keeps homePage.id)) :=
  walk_keeps_exactly_permitted_chains demoAtHome homePage rfl demoTree (by decide)

/-- Evaluation of the walk on the demo tree: `b` is removed, the other
elements stay. -/
theorem walk_demoTree :
    (walk demoAtHome demoTree).2 = none ∧
    (descChains (walk demoAtHome demoTree).1).map (fun ch => ch.map (fun l => l.1))
      = [[11], [13], [13, 14], [15]] ∧
    (descChains demoTree).map (fun ch => ch.map (fun l => l.1))
      = [[11], [11, 12], [13], [13, 14], [15]] := by
  decide

/-! ## Base path: `cutPath` after `Fullpath` (C10) -/

theorem cleanLoop_slash (rooted : Bool) (fuel : Nat) (rest rout : List Nat) (dd : Nat) :
    cleanLoop rooted (fuel + 1) (47 :: rest) rout dd = cleanLoop rooted fuel rest rout dd := by
  simp [cleanLoop]

theorem cleanLoop_nil (rooted : Bool) (fuel : Nat) (rout : List Nat) (dd : Nat) :
    cleanLoop rooted fuel [] rout dd = rout := by
  cases fuel <;> simp [cleanLoop]

theorem cleanLoop_segment (s rest rout : List Nat) (dd fuel : Nat)
    (hs : normalSeg s = true) (hrest : ∀ x r, rest = x :: r → x = 47) :
    cleanLoop true (fuel + 1) (s ++ rest) rout dd
      = cleanLoop true fuel rest (pushSeg rout s) dd := by
  simp only [normalSeg, Bool.and_eq_true, bne_iff_ne, ne_eq, List.all_eq_true] at hs
  obtain ⟨⟨⟨hne, hall⟩, hdot⟩, hdotdot⟩ := hs
  cases s with
  | nil => exact absurd rfl hne
  | cons c s1 =>
    have hc : c ≠ 47 := hall c (by simp)
    have hs1 : ∀ x ∈ s1, x ≠ 47 := fun x hx => hall x (by simp [hx])
    have htw := takeWhile_append_stop (fun b => b != 47) (c :: s1) rest
      (fun x hx => by simpa using hall x hx)
      (fun x r h => by simp [hrest x r h])
    have hnotdot : ¬ (c = 46 ∧ (s1 ++ rest = [] ∨ (s1 ++ rest).head? = some 47)) := by
      rintro ⟨h46, h⟩
      cases s1 with
      | nil => exact hdot (by rw [h46])
      | cons d s2 =>
        rcases h with h | h
        · simp at h
        · simp only [List.cons_append, List.head?_cons, Option.some.injEq] at h
          exact hs1 d (by simp) h
    have hnotdd : ¬ (c = 46 ∧ (s1 ++ rest).head? = some 46 ∧
        ((s1 ++ rest).tail = [] ∨ (s1 ++ rest).tail.head? = some 47)) := by
      rintro ⟨h46, hh, ht⟩
      cases s1 with
      | nil =>
        cases rest with
        | nil => simp at hh
        | cons x r =>
          have := hrest x r rfl
          simp only [List.nil_append, List.head?_cons, Option.some.injEq] at hh
          omega
      | cons d s2 =>
        simp only [List.cons_append, List.head?_cons, Option.some.injEq] at hh
        cases s2 with
        | nil => exact hdotdot (by rw [h46, hh])
        | cons e s3 =>
          rcases ht with ht | ht
          · simp at ht
          · simp only [List.cons_append, List.tail_cons, List.head?_cons,
              Option.some.injEq] at ht
            exact hs1 e (by simp) ht
    simp only [List.cons_append] at htw hnotdot hnotdd ⊢
    simp only [cleanLoop, hc, if_false, hnotdot, hnotdd, htw.1, htw.2, pushSeg,
      Bool.true_and, Bool.not_true, Bool.false_and, Bool.or_false]

theorem joinSegs_head (segs : List GoString) (rest : List Nat)
    (hrest : ∀ x r, rest = x :: r → x = 47) :
    ∀ x r, joinSegs segs ++ rest = x :: r → x = 47 := by
  intro x r h
  cases segs with
  | nil => exact hrest x r (by simpa [joinSegs] using h)
  | cons s ss =>
    simp only [joinSegs, List.flatMap_cons, List.cons_append, List.cons.injEq] at h
    exact h.1.symm

theorem cleanLoop_joinSegs :
    ∀ (segs : List GoString) (rest rout : List Nat) (dd fuel : Nat),
      (∀ s ∈ segs, normalSeg s = true) → (∀ x r, rest = x :: r → x = 47) →
      cleanLoop true (fuel + 2 * segs.length) (joinSegs segs ++ rest) rout dd
        = cleanLoop true fuel rest (segs.foldl pushSeg rout) dd := by
  intro segs
  induction segs with
  | nil => intro rest rout dd fuel _ _; simp [joinSegs]
  | cons s ss ih =>
    intro rest rout dd fuel hn hrest
    have hs : normalSeg s = true := hn s (by simp)
    have hss : ∀ t ∈ ss, normalSeg t = true := fun t ht => hn t (by simp [ht])
    have hform : joinSegs (s :: ss) ++ rest = 47 :: (s ++ (joinSegs ss ++ rest)) := by
      simp [joinSegs]
    rw [hform, show fuel + 2 * (s :: ss).length = (fuel + 2 * ss.length + 1) + 1 by
      simp only [List.length_cons]; omega]
    rw [cleanLoop_slash, cleanLoop_segment s _ rout dd _ hs (joinSegs_head ss rest hrest),
      ih rest (pushSeg rout s) dd fuel hss hrest]
    rfl

theorem normalSeg_length (s : GoString) (h : normalSeg s = true) : 1 ≤ s.length := by
  cases s with
  | nil => simp [normalSeg] at h
  | cons c r => simp

theorem foldl_pushSeg_reverse :
    ∀ (segs : List GoString) (rout : List Nat), 2 ≤ rout.length →
      (∀ s ∈ segs, normalSeg s = true) →
      (segs.foldl pushSeg rout).reverse = rout.reverse ++ joinSegs segs := by
  intro segs
  induction segs with
  | nil => intro rout _ _; simp [joinSegs]
  | cons s ss ih =>
    intro rout hlen hn
    have hne : (rout.length != 1) = true := by simp; omega
    have hpush : pushSeg rout s = s.reverse ++ 47 :: rout := by
      simp only [pushSeg, hne, if_true]
    simp only [List.foldl_cons]
    rw [ih (pushSeg rout s) (by rw [hpush]; simp; omega) (fun t ht => hn t (by simp [ht])),
      hpush]
    simp [joinSegs]

theorem joinSegs_length (segs : List GoString) (hn : ∀ s ∈ segs, normalSeg s = true) :
    2 * segs.length ≤ (joinSegs segs).length := by
  induction segs with
  | nil => simp
  | cons s ss ih =>
    have h1 := normalSeg_length s (hn s (by simp))
    have h2 := ih (fun t ht => hn t (by simp [ht]))
    simp only [joinSegs, List.flatMap_cons, List.cons_append, List.length_cons,
      List.length_append] at h2 ⊢
    omega

theorem pathClean_joined (b1 : GoString) (bs ps : List GoString)
    (hb1 : normalSeg b1 = true) (hbs : ∀ s ∈ bs, normalSeg s = true)
    (hps : ∀ s ∈ ps, normalSeg s = true) :
    pathClean (joinSegs (b1 :: bs) ++ 47 :: joinSegs ps)
      = joinSegs (b1 :: bs) ++ joinSegs ps := by
  have hform : joinSegs (b1 :: bs) ++ 47 :: joinSegs ps
      = 47 :: (b1 ++ (joinSegs bs ++ 47 :: joinSegs ps)) := by
    simp [joinSegs]
  have hl1 := joinSegs_length bs hbs
  have hl2 := joinSegs_length ps hps
  have hl0 := normalSeg_length b1 hb1
  have hnil : ∀ x r, ([] : List Nat) = x :: r → x = 47 :=
    fun x r h => List.noConfusion h
  have hmid : ∀ x r, (47 :: joinSegs ps) = x :: r → x = 47 := by
    intro x r h
    simp only [List.cons.injEq] at h
    exact h.1.symm
  obtain ⟨f, hf⟩ : ∃ f, (47 :: (b1 ++ (joinSegs bs ++ 47 :: joinSegs ps))).length + 1
      = (((f + 2 * ps.length) + 1) + 2 * bs.length) + 1 := by
    refine ⟨(47 :: (b1 ++ (joinSegs bs ++ 47 :: joinSegs ps))).length + 1
      - (2 * ps.length + 1 + 2 * bs.length + 1), ?_⟩
    simp only [List.length_cons, List.length_append]
    omega
  have hloop : cleanLoop true
      ((47 :: (b1 ++ (joinSegs bs ++ 47 :: joinSegs ps))).length + 1)
      (b1 ++ (joinSegs bs ++ 47 :: joinSegs ps)) [47] 1
      = ps.foldl pushSeg (bs.foldl pushSeg (pushSeg [47] b1)) := by
    rw [hf, cleanLoop_segment b1 _ [47] 1 _ hb1 (joinSegs_head bs _ hmid),
      cleanLoop_joinSegs bs _ _ 1 _ hbs hmid, cleanLoop_slash]
    have := cleanLoop_joinSegs ps [] (bs.foldl pushSeg (pushSeg [47] b1)) 1 f hps hnil
    rw [List.append_nil] at this
    rw [this, cleanLoop_nil]
  have hpush : pushSeg [47] b1 = b1.reverse ++ [47] := by
    simp [pushSeg]
  have hrev : (ps.foldl pushSeg (bs.foldl pushSeg (pushSeg [47] b1))).reverse
      = joinSegs (b1 :: bs) ++ joinSegs ps := by
    rw [← List.foldl_append, foldl_pushSeg_reverse (bs ++ ps) _
      (by rw [hpush]; simp; omega)
      (fun s hs => by
        rcases List.mem_append.mp hs with h | h
        · exact hbs s h
        · exact hps s h), hpush]
    simp [joinSegs]
  rw [hform]
  simp only [pathClean, beq_self_eq_true, if_true, List.tail_cons, hloop]
  rw [hrev]
  have hlen : (ps.foldl pushSeg (bs.foldl pushSeg (pushSeg [47] b1))).length ≠ 0 := by
    rw [← List.length_reverse, hrev]
    simp [joinSegs]
  simp only [hlen, if_false]

/-- C10 (amended). For every base path of the form `/b1/.../bn` (`n ≥ 1`) and
every route path `/p1/.../pm`, all elements non-empty, free of `'/'` and
neither `.` nor `..`, `cutPath(Fullpath(p)) = p`: the full URL that
`PageUrl` builds is cut back to the route path before it is looked up. -/
theorem cutPath_Fullpath_round_trip (pm : PM) (b1 : GoString) (bs ps : List GoString)
    (hbase : pm.basePath = joinSegs (b1 :: bs))
    (hb1 : normalSeg b1 = true) (hbs : ∀ s ∈ bs, normalSeg s = true)
    (hps : ∀ s ∈ ps, normalSeg s = true) :
    pm.cutPath (pm.Fullpath (joinSegs ps)) = joinSegs ps := by
  have hne : joinSegs (b1 :: bs) ≠ [] := by simp [joinSegs]
  have hfull : pm.Fullpath (joinSegs ps) = joinSegs (b1 :: bs) ++ joinSegs ps := by
    simp only [PM.Fullpath, pathJoin, hbase, hne, ne_eq, not_false_eq_true, if_true]
    exact pathClean_joined b1 bs ps hb1 hbs hps
  simp only [PM.cutPath, hfull, hbase, startsWith, List.take_left', List.drop_left',
    beq_self_eq_true, if_true]

/-- Witness of C10 (amended): base path `/app`, route path `/user/42`. -/
theorem cutPath_Fullpath_round_trip_witness :
    (demoPM (gostr "/app")).cutPath
        ((demoPM (gostr "/app")).Fullpath (joinSegs [gostr "user", gostr "42"]))
      = joinSegs [gostr "user", gostr "42"] :=
  cutPath_Fullpath_round_trip (demoPM (gostr "/app")) (gostr "app") []
    [gostr "user", gostr "42"] (by decide) (by decide) (by decide) (by decide)

/-- C10 (counterexample). Route paths that begin with `/` and are not cut
back to themselves: with the base path `/` that an empty configuration
gets, `/user/42` comes back as `user/42`; with base path `/app`, `/a//b`
comes back as `/a/b` and `/` as the empty path; with base path `/app/`,
`/user` comes back as `user`. -/
theorem cutPath_Fullpath_not_inverse :
    newBasePath [] = gostr "/" ∧
    (demoPM (newBasePath [])).cutPath ((demoPM (newBasePath [])).Fullpath (gostr "/user/42"))
      = gostr "user/42" ∧
    (demoPM (gostr "/app")).cutPath ((demoPM (gostr "/app")).Fullpath (gostr "/a//b"))
      = gostr "/a/b" ∧
    (demoPM (gostr "/app")).cutPath ((demoPM (gostr "/app")).Fullpath (gostr "/"))
      = gostr "" ∧
    (demoPM (gostr "/app/")).cutPath ((demoPM (gostr "/app/")).Fullpath (gostr "/user"))
      = gostr "user" := by
  decide

/-! ## The commit guard on a URL that resolves to the current page (C4) -/

theorem withHistory_self (pm : PM) : pm.withHistory pm.history = pm := by
  cases pm; rfl

theorem guard_done (env : Collab) (pm0 : PM) (page : Page) (c : HistoryCall)
    (params : List (GoString × GoString)) (pushState : Bool)
    (hcur : pm0.currentPtr = some page.ptr) :
    (if (if pushState then pm0.callHistory c else pm0).currentPage.map (fun p => p.ptr)
          ≠ some page.ptr then
        PM.remount env (if pushState then pm0.callHistory c else pm0) page params
      else Exec.done (if pushState then pm0.callHistory c else pm0))
      = Exec.done (if pushState then pm0.callHistory c else pm0) := by
  have hcur2 : (if pushState then pm0.callHistory c else pm0).currentPage.map
      (fun p => p.ptr) = some page.ptr := by
    cases pushState
    · exact hcur
    · exact hcur
  rw [if_neg (by rw [hcur2]; simp)]

theorem resolves_current_noop (env : Collab) (pm : PM) (url : GoString) (page : Page)
    (hres : pm.Resolves url page) (hcur : pm.currentPtr = some page.ptr) :
    ∀ (hist : List HistoryCall) (pushState : Bool),
      ∃ fuel0 added,
        (∀ fuel, fuel0 ≤ fuel →
          PM.updatePage env fuel (pm.withHistory hist) url pushState
            = Exec.done (pm.withHistory (hist ++ added))) ∧
        (pushState = false → ∀ h ∈ added, h.isPushState = false) := by
  induction hres with
  | direct url page rps hcut hroute =>
    intro hist pushState
    refine ⟨1, if pushState then
        [HistoryCall.PushState page.title (pm.Fullpath (pm.cutPath url))] else [], ?_, ?_⟩
    · intro fuel hf
      obtain ⟨f, rfl⟩ : ∃ f, fuel = f + 1 := ⟨fuel - 1, by omega⟩
      have hcut2 : ¬ ((pm.withHistory hist).cutPath url = [] ∨
          (pm.withHistory hist).cutPath url = gostr "/") := hcut
      have hroute2 : (pm.withHistory hist).router ((pm.withHistory hist).cutPath url)
          = some (page, rps) := hroute
      simp only [PM.updatePage, hcut2, if_false, hroute2]
      rw [guard_done env (pm.withHistory hist) page _ _ pushState hcur]
      cases pushState
      · simp only [Bool.false_eq_true, if_false, List.append_nil]
      · rfl
    · intro hp h hh
      rw [hp] at hh
      simp at hh
  | start url sp page rps hcut hstart hroute =>
    intro hist pushState
    refine ⟨1, HistoryCall.ReplaceState sp.title (pm.Fullpath sp.path) ::
      (if pushState then [HistoryCall.PushState page.title (pm.Fullpath sp.path)] else []),
      ?_, ?_⟩
    · intro fuel hf
      obtain ⟨f, rfl⟩ : ∃ f, fuel = f + 1 := ⟨fuel - 1, by omega⟩
      have hcut2 : (pm.withHistory hist).cutPath url = [] ∨
          (pm.withHistory hist).cutPath url = gostr "/" := hcut
      have hstart2 : (pm.withHistory hist).page (pm.withHistory hist).startPageId
          = Run.ret sp := hstart
      have hroute2 : ((pm.withHistory hist).callHistory
          (HistoryCall.ReplaceState sp.title ((pm.withHistory hist).Fullpath sp.path))).router
          sp.path = some (page, rps) := hroute
      simp only [PM.updatePage, hcut2, if_true, hstart2, hroute2]
      rw [guard_done env ((pm.withHistory hist).callHistory
        (HistoryCall.ReplaceState sp.title ((pm.withHistory hist).Fullpath sp.path)))
        page _ _ pushState hcur]
      cases pushState
      · simp only [Bool.false_eq_true, if_false]
        rfl
      · simp only [if_true]
        simp only [PM.callHistory, PM.withHistory, List.append_assoc, List.singleton_append]
        rfl
    · intro hp h hh
      rw [hp] at hh
      simp only [Bool.false_eq_true, if_false, List.mem_singleton] at hh
      rw [hh]; rfl
  | notFound url nf page hcut hroute hnf _ ih =>
    intro hist pushState
    obtain ⟨fuel0, added, hrun, hpush⟩ := ih hcur hist false
    refine ⟨fuel0 + 1, added, ?_, fun _ => hpush rfl⟩
    intro fuel hf
    obtain ⟨f, rfl⟩ : ∃ f, fuel = f + 1 := ⟨fuel - 1, by omega⟩
    have hcut2 : ¬ ((pm.withHistory hist).cutPath url = [] ∨
        (pm.withHistory hist).cutPath url = gostr "/") := hcut
    have hroute2 : (pm.withHistory hist).router ((pm.withHistory hist).cutPath url)
        = none := hroute
    have hnf2 : (pm.withHistory hist).notFoundPage = some nf := hnf
    simp only [PM.updatePage, hcut2, if_false, hroute2, hnf2]
    exact hrun f (by omega)
  | startNotFound url sp nf page hcut hstart hroute hnf _ ih =>
    intro hist pushState
    obtain ⟨fuel0, added, hrun, hpush⟩ := ih hcur
      (hist ++ [HistoryCall.ReplaceState sp.title (pm.Fullpath sp.path)]) false
    refine ⟨fuel0 + 1, HistoryCall.ReplaceState sp.title (pm.Fullpath sp.path) :: added,
      ?_, ?_⟩
    · intro fuel hf
      obtain ⟨f, rfl⟩ : ∃ f, fuel = f + 1 := ⟨fuel - 1, by omega⟩
      have hcut2 : (pm.withHistory hist).cutPath url = [] ∨
          (pm.withHistory hist).cutPath url = gostr "/" := hcut
      have hstart2 : (pm.withHistory hist).page (pm.withHistory hist).startPageId
          = Run.ret sp := hstart
      have hroute2 : ((pm.withHistory hist).callHistory
          (HistoryCall.ReplaceState sp.title ((pm.withHistory hist).Fullpath sp.path))).router
          sp.path = none := hroute
      have hnf2 : ((pm.withHistory hist).callHistory
          (HistoryCall.ReplaceState sp.title
            ((pm.withHistory hist).Fullpath sp.path))).notFoundPage = some nf := hnf
      simp only [PM.updatePage, hcut2, if_true, hstart2, hroute2, hnf2]
      have := hrun f (by omega)
      simp only [List.append_assoc, List.singleton_append] at this
      exact this
    · intro _ h hh
      rcases List.mem_cons.mp hh with h1 | h1
      · rw [h1]; rfl
      · exact hpush rfl h h1

/-- C4 (amended). For every URL that resolves to the page that is already
the current page, `updatePage(url, pushState)` returns, for both values of
`pushState` and whatever the route parameters are, in a state that differs
from the initial one in the history log only: the current page, the current
Scope, the working and real container content and the document title are
unchanged, watchers are not reset and no controller is run. The history log
only gains calls, and with `pushState = false` none of them is a
`PushState`. -/
theorem updatePage_on_current_page_is_noop (env : Collab) (pm : PM) (url : GoString)
    (page : Page) (pushState : Bool)
    (hres : pm.Resolves url page) (hcur : pm.currentPtr = some page.ptr) :
    ∃ fuel0 added,
      (∀ fuel, fuel0 ≤ fuel →
        PM.updatePage env fuel pm url pushState
          = Exec.done (pm.withHistory (pm.history ++ added))) ∧
      pm.samePageState (pm.withHistory (pm.history ++ added)) ∧
      (pushState = false → ∀ h ∈ added, h.isPushState = false) := by
  obtain ⟨fuel0, added, hrun, hpush⟩ :=
    resolves_current_noop env pm url page hres hcur pm.history pushState
  rw [withHistory_self] at hrun
  exact ⟨fuel0, added, hrun, samePageState_refl pm, hpush⟩

/-- Witness of C4 (amended): with page `user` current, the URL
`/app/user/43` resolves to `user` by a direct lookup; `pushState` is true. -/
theorem updatePage_on_current_page_is_noop_witness :
    ∃ fuel0 added,
      (∀ fuel, fuel0 ≤ fuel →
        PM.updatePage idCollab fuel demoAtUser (gostr "/app/user/43") true
          = Exec.done (demoAtUser.withHistory (demoAtUser.history ++ added))) ∧
      demoAtUser.samePageState (demoAtUser.withHistory (demoAtUser.history ++ added)) ∧
      (true = false → ∀ h ∈ added, h.isPushState = false) :=
  updatePage_on_current_page_is_noop idCollab demoAtUser (gostr "/app/user/43") userPage true
    (PM.Resolves.direct (gostr "/app/user/43") userPage
      [⟨gostr "id", gostr "43"⟩] (by decide) rfl)
    rfl

end Wade
